import Mathlib

/-
Verification of the recursive tree-walking core of the `ts-object-manager`
library (src/index.ts) against its natural-language specification.

Modelling conventions (shallow embedding of the JavaScript source):

* A JavaScript value is modelled by the inductive type `JVal`: the scalars
  `undefined`, `null`, booleans, numbers (modelled as integers; `NaN` and
  floating point are not needed by any claim), strings, and the two container
  kinds, arrays (`arr`) and plain objects (`obj`, an insertion-ordered list of
  own enumerable properties).  JavaScript guarantees that an object's keys are
  distinct; theorems that depend on this carry a `Nodup` hypothesis.

* Except for the cycle/identity claims, inputs are modelled as materialized
  trees without shared references.  On such inputs the strict-equality test
  `a === b` between two containers taken from distinct trees is always false
  (distinct references), and a per-call `WeakMap`/`WeakSet` cycle guard keyed
  by reference identity never fires twice; `jsStrictEq` and the omission of
  the `visited` parameter of `getObjectDiffIterative` encode exactly this.
  The cycle claims (C1, C6) instead use an explicit heap model (`Node`,
  `Heap`, `HVal`) with reference values and fuelled recursion, where `none`
  means the recursion did not finish within the given fuel.

* Operations that can raise a `TypeError` (a `WeakSet.add` on a primitive,
  `hasOwnProperty`/`Object.keys` on `null` or `undefined`) return
  `Except Unit _`, with `Except.error ()` the thrown TypeError.

* Boxed-string index properties ("ab"[0], .length) and the non-enumerable
  `length` property of arrays are not modelled: no claim touches them, every
  property read on a non-container scalar yields `undefined`.
-/

namespace ObjectManager

/-- A materialized JavaScript value (tree-shaped, no shared references). -/
inductive JVal : Type where
  | undef : JVal
  | null : JVal
  | bool : Bool → JVal
  | num : Int → JVal
  | str : String → JVal
  | arr : List JVal → JVal
  | obj : List (String × JVal) → JVal

/-- Result of the JavaScript `typeof` operator (note `typeof null = "object"`). -/
def jsTypeof : JVal → String
  | .undef => "undefined"
  | .null => "object"
  | .bool _ => "boolean"
  | .num _ => "number"
  | .str _ => "string"
  | .arr _ => "object"
  | .obj _ => "object"

/-- The library's `isObject` test: `typeof v === "object" && v !== null`. -/
def jsIsObject : JVal → Bool
  | .arr _ => true
  | .obj _ => true
  | _ => false

/-- `Array.isArray`. -/
def isArrJ : JVal → Bool
  | .arr _ => true
  | _ => false

def arrElems : JVal → List JVal
  | .arr es => es
  | _ => []

/-- JavaScript truthiness of a value (no NaN in the model). -/
def jsTruthy : JVal → Bool
  | .undef => false
  | .null => false
  | .bool b => b
  | .num n => n ≠ 0
  | .str s => s ≠ ""
  | .arr _ => true
  | .obj _ => true

/-- Property read on an object's own-property list; absent keys read as
`undefined`, duplicate keys (impossible in JavaScript) read the first match. -/
def objLookup : List (String × JVal) → String → JVal
  | [], _ => .undef
  | (k, v) :: rest, key => if k = key then v else objLookup rest key

def arrIndexGet : List JVal → Nat → String → JVal
  | [], _, _ => .undef
  | e :: rest, i, key => if toString i = key then e else arrIndexGet rest (i + 1) key

/-- JavaScript property read `v[key]` (never throws for non-null receivers;
scalars box to wrappers with no modelled own properties). -/
def jsGet : JVal → String → JVal
  | .obj fs, key => objLookup fs key
  | .arr es, key => arrIndexGet es 0 key
  | _, _ => .undef

def objHasKey (fs : List (String × JVal)) (key : String) : Bool :=
  fs.any (fun p => p.1 = key)

def arrHasIndex : List JVal → Nat → String → Bool
  | [], _, _ => false
  | _ :: rest, i, key => toString i = key || arrHasIndex rest (i + 1) key

/-- Own-property test (`hasOwnProperty` on a non-null receiver, and the `in`
operator on containers). -/
def jsHasOwn : JVal → String → Bool
  | .obj fs, key => objHasKey fs key
  | .arr es, key => arrHasIndex es 0 key
  | _, _ => false

/-- `v.hasOwnProperty(key)`: throws a TypeError when the receiver is `null`
or `undefined`, otherwise boxes the receiver. -/
def jsHasOwnProperty : JVal → String → Except Unit Bool
  | .null, _ => .error ()
  | .undef, _ => .error ()
  | v, key => .ok (jsHasOwn v key)

/-- `Object.keys(v)`: throws on `null`/`undefined`, lists own enumerable keys
of containers, and yields `[]` for the remaining (boxed) scalars. -/
def jsObjectKeys : JVal → Except Unit (List String)
  | .null => .error ()
  | .undef => .error ()
  | .obj fs => .ok (fs.map Prod.fst)
  | .arr es => .ok ((List.range es.length).map toString)
  | _ => .ok []

def arrEnumFields : List JVal → Nat → List (String × JVal)
  | [], _ => []
  | e :: rest, i => (toString i, e) :: arrEnumFields rest (i + 1)

/-- Own enumerable properties in `for..in` order (`for..in` over `null`,
`undefined` or a non-string scalar iterates nothing). -/
def toFields : JVal → List (String × JVal)
  | .obj fs => fs
  | .arr es => arrEnumFields es 0
  | _ => []

/-- JavaScript property assignment `o[key] = v` on an own-property list:
overwrites in place when the key exists, appends otherwise. -/
def objAssign (fs : List (String × JVal)) (key : String) (v : JVal) :
    List (String × JVal) :=
  if objHasKey fs key then fs.map (fun p => if p.1 = key then (key, v) else p)
  else fs ++ [(key, v)]

/-- Strict equality `a === b` for values taken from reference-disjoint trees:
scalars compare by value, two container references from distinct trees are
never identical. -/
def jsStrictEq : JVal → JVal → Bool
  | .undef, .undef => true
  | .null, .null => true
  | .bool a, .bool b => a = b
  | .num a, .num b => a = b
  | .str a, .str b => a = b
  | _, _ => false

/-! Weight measure used for termination of the tree-walking functions. -/

mutual
def jweight : JVal → Nat
  | .undef => 1
  | .null => 1
  | .bool _ => 1
  | .num _ => 1
  | .str _ => 1
  | .arr es => 1 + jweightElems es
  | .obj fs => 1 + jweightFields fs
def jweightElems : List JVal → Nat
  | [] => 0
  | e :: rest => jweight e + 1 + jweightElems rest
def jweightFields : List (String × JVal) → Nat
  | [] => 0
  | p :: rest => jweight p.2 + 1 + jweightFields rest
end

theorem jweight_pos (v : JVal) : 1 ≤ jweight v := by
  cases v <;> simp only [jweight] <;> omega

theorem jweight_lt_of_mem_fields {fs : List (String × JVal)} {p : String × JVal}
    (h : p ∈ fs) : jweight p.2 < jweightFields fs := by
  induction fs with
  | nil => cases h
  | cons q rest ih =>
    rcases List.mem_cons.mp h with h | h
    · subst h; simp only [jweightFields]; omega
    · have := ih h
      simp only [jweightFields]; omega

theorem jweight_lt_of_mem_elems {es : List JVal} {e : JVal}
    (h : e ∈ es) : jweight e < jweightElems es := by
  induction es with
  | nil => cases h
  | cons q rest ih =>
    rcases List.mem_cons.mp h with h | h
    · subst h; simp only [jweightElems]; omega
    · have := ih h
      simp only [jweightElems]; omega

theorem objLookup_weight_le (fs : List (String × JVal)) (key : String) :
    jweight (objLookup fs key) ≤ 1 + jweightFields fs := by
  induction fs with
  | nil => simp [objLookup, jweight]
  | cons p rest ih =>
    by_cases h : p.1 = key
    · cases p with
      | mk k v => simp only [objLookup] at *; simp [h, jweightFields]; omega
    · cases p with
      | mk k v =>
        simp only [objLookup] at *
        simp only [jweightFields]
        rw [if_neg h]
        omega

theorem objLookup_weight_lt_of_mem {fs : List (String × JVal)} {key : String}
    (h : key ∈ fs.map Prod.fst) : jweight (objLookup fs key) < 1 + jweightFields fs := by
  induction fs with
  | nil => simp at h
  | cons p rest ih =>
    by_cases hk : p.1 = key
    · cases p with
      | mk k v => simp only [objLookup]; rw [if_pos hk]; simp [jweightFields]; omega
    · cases p with
      | mk k v =>
        simp only [List.map_cons, List.mem_cons] at h
        rcases h with h | h
        · exact absurd h.symm hk
        · have := ih h
          simp only [objLookup]
          rw [if_neg hk]
          simp only [jweightFields]
          omega

theorem arrIndexGet_weight_le (es : List JVal) (i : Nat) (key : String) :
    jweight (arrIndexGet es i key) ≤ 1 + jweightElems es := by
  induction es generalizing i with
  | nil => simp [arrIndexGet, jweight]
  | cons e rest ih =>
    simp only [arrIndexGet]
    by_cases h : toString i = key
    · rw [if_pos h]; simp [jweightElems]; omega
    · rw [if_neg h]
      have := ih (i + 1)
      simp only [jweightElems]
      omega

theorem jsGet_weight_le (v : JVal) (key : String) :
    jweight (jsGet v key) ≤ jweight v := by
  cases v with
  | obj fs => simpa [jsGet, jweight] using objLookup_weight_le fs key
  | arr es => simpa [jsGet, jweight] using arrIndexGet_weight_le es 0 key
  | _ => simp [jsGet, jweight]

theorem jsGet_obj_weight_lt_of_mem {fs : List (String × JVal)} {key : String}
    (h : key ∈ fs.map Prod.fst) : jweight (jsGet (.obj fs) key) < jweight (JVal.obj fs) := by
  simpa [jsGet, jweight] using objLookup_weight_lt_of_mem h

/-! Deep equality: `isObjectDeepEqual` (src/index.ts lines 98-145).  The
positional array loop and the `keys1` loop are rendered with `zip`/`attach`
so that the recursion is visibly decreasing; both agree with the source's
index/key loops because the loops run only after the length checks. -/

def isObjectDeepEqual (o1 o2 : JVal) : Bool :=
  if jsTypeof o1 ≠ jsTypeof o2 then false
  else
    match o1, o2 with
    | .arr es1, .arr es2 =>
      if es1.length ≠ es2.length then false
      else (es1.zip es2).attach.all (fun p => isObjectDeepEqual p.1.1 p.1.2)
    | .arr _, .obj _ => false
    | .obj _, .arr _ => false
    | .obj fs1, .obj fs2 =>
      if (fs1.map Prod.fst).length ≠ (fs2.map Prod.fst).length then false
      else (fs1.map Prod.fst).attach.all
        (fun k => isObjectDeepEqual (jsGet (.obj fs1) k.1) (jsGet (.obj fs2) k.1))
    | v1, v2 => jsStrictEq v1 v2
termination_by jweight o1 + jweight o2
decreasing_by
  · obtain ⟨⟨a, b⟩, hp⟩ := p
    have h1 := List.of_mem_zip hp
    have w1 := jweight_lt_of_mem_elems h1.1
    have w2 := jweight_lt_of_mem_elems h1.2
    simp only [jweight]
    omega
  · obtain ⟨k, hk⟩ := k
    show jweight (jsGet (JVal.obj fs1) k) + jweight (jsGet (JVal.obj fs2) k) <
      jweight (JVal.obj fs1) + jweight (JVal.obj fs2)
    have w1 := jsGet_obj_weight_lt_of_mem hk
    have w2 := jsGet_weight_le (.obj fs2) k
    omega

/-! Further helpers for the binary walks. -/

def isNullJ : JVal → Bool
  | .null => true
  | _ => false

def isUndefJ : JVal → Bool
  | .undef => true
  | _ => false

/-- Object spread `{...v}`: a fresh plain object holding the own enumerable
properties of `v` (an empty object for non-container scalars). -/
def spreadToObj (v : JVal) : JVal := .obj (toFields v)

/-- `new Set([...keysA, ...keysB])` iterated in insertion order. -/
def setUnion (l1 l2 : List String) : List String :=
  (l1 ++ l2).foldl (fun acc k => if acc.contains k then acc else acc ++ [k]) []

/-- The `in` operator `key in v`: own-key test on containers, TypeError on
primitives. -/
def jsHasIn : JVal → String → Except Unit Bool
  | .obj fs, key => .ok (objHasKey fs key)
  | .arr es, key => .ok (arrHasIndex es 0 key)
  | _, _ => .error ()

theorem objLookup_isObject_mem {fs : List (String × JVal)} {key : String}
    (h : jsIsObject (objLookup fs key) = true) :
    ∃ p ∈ fs, objLookup fs key = p.2 := by
  induction fs with
  | nil => simp [objLookup, jsIsObject] at h
  | cons p rest ih =>
    by_cases hk : p.1 = key
    · refine ⟨p, List.mem_cons_self _ _, ?_⟩
      simp [objLookup, hk]
    · simp only [objLookup, if_neg hk] at h ⊢
      obtain ⟨q, hq, he⟩ := ih h
      exact ⟨q, List.mem_cons_of_mem _ hq, he⟩

theorem arrIndexGet_isObject_mem {es : List JVal} {i : Nat} {key : String}
    (h : jsIsObject (arrIndexGet es i key) = true) :
    ∃ e ∈ es, arrIndexGet es i key = e := by
  induction es generalizing i with
  | nil => simp [arrIndexGet, jsIsObject] at h
  | cons e rest ih =>
    by_cases hk : toString i = key
    · refine ⟨e, List.mem_cons_self _ _, ?_⟩
      simp [arrIndexGet, hk]
    · simp only [arrIndexGet, if_neg hk] at h ⊢
      obtain ⟨q, hq, he⟩ := ih h
      exact ⟨q, List.mem_cons_of_mem _ hq, he⟩

theorem jsGet_weight_lt_of_isObject {v : JVal} {key : String}
    (h : jsIsObject (jsGet v key) = true) : jweight (jsGet v key) < jweight v := by
  cases v with
  | obj fs =>
    simp only [jsGet] at h ⊢
    obtain ⟨p, hp, he⟩ := objLookup_isObject_mem h
    rw [he]
    have := jweight_lt_of_mem_fields hp
    simp only [jweight]
    omega
  | arr es =>
    simp only [jsGet] at h ⊢
    obtain ⟨e, hplist, he⟩ := arrIndexGet_isObject_mem h
    rw [he]
    have := jweight_lt_of_mem_elems hplist
    simp only [jweight]
    omega
  | _ => simp [jsGet, jsIsObject] at h

theorem jweightFields_arrEnum (es : List JVal) (i : Nat) :
    jweightFields (arrEnumFields es i) = jweightElems es := by
  induction es generalizing i with
  | nil => simp [arrEnumFields, jweightFields, jweightElems]
  | cons e rest ih =>
    simp [arrEnumFields, jweightFields, jweightElems, ih (i + 1)]

theorem toFields_weight_lt (v : JVal) : jweightFields (toFields v) < jweight v := by
  cases v with
  | obj fs => simp only [toFields, jweight]; omega
  | arr es => simp only [toFields, jweight, jweightFields_arrEnum]; omega
  | _ => simp only [toFields, jweightFields, jweight] <;> omega

/-! The diff walk: `getObjectDiffIterative` (src/index.ts lines 253-300),
recursive variant with a per-call `visited` WeakMap.  On the materialized
reference-disjoint trees of this model the WeakMap's `continue` branch never
fires (it requires revisiting the same `valueA` reference with an identical
`valueB` reference), so the parameter is dropped; `valueA !== valueB` is
`jsStrictEq` (containers from distinct trees are never identical).  The final
`Object.keys(diff).length > 0 ? diff : {}` returns the same value either way
and is rendered as the assembled object. -/

mutual
def getObjectDiffIterative (objA objB : JVal) : Except Unit JVal :=
  if isNullJ objA && isNullJ objB then .ok .undef
  else if isNullJ objA then .ok (spreadToObj objB)
  else if isNullJ objB then .ok (spreadToObj objA)
  else do
    let keysA ← jsObjectKeys objA
    let keysB ← jsObjectKeys objB
    let dfs ← diffKeys (setUnion keysA keysB) objA objB []
    .ok (.obj dfs)
termination_by (jweight objA + jweight objB, 1, 0)
decreasing_by
  apply Prod.Lex.right
  exact Prod.Lex.left _ _ (by omega)
def diffKeys (keys : List String) (objA objB : JVal) (dacc : List (String × JVal)) :
    Except Unit (List (String × JVal)) :=
  match keys with
  | [] => .ok dacc
  | key :: rest => do
    let valueA := jsGet objA key
    let valueB := jsGet objB key
    let hA ← jsHasIn objA key
    let hB ← jsHasIn objB key
    if ¬ hA then diffKeys rest objA objB (objAssign dacc key valueB)
    else if ¬ hB then diffKeys rest objA objB (objAssign dacc key .undef)
    else if jsStrictEq valueA valueB then diffKeys rest objA objB dacc
    else if h : jsIsObject valueA && jsIsObject valueB then do
      let nested ← getObjectDiffIterative valueA valueB
      let nestedKeys ← jsObjectKeys nested
      if nestedKeys.length > 0 then diffKeys rest objA objB (objAssign dacc key nested)
      else diffKeys rest objA objB dacc
    else diffKeys rest objA objB (objAssign dacc key valueB)
termination_by (jweight objA + jweight objB, 0, keys.length)
decreasing_by
  all_goals
    first
    | (simp only [Bool.and_eq_true] at h
       have w1 := jsGet_weight_lt_of_isObject h.1
       have w2 := jsGet_weight_lt_of_isObject h.2
       exact Prod.Lex.left _ _ (by omega))
    | (apply Prod.Lex.right
       apply Prod.Lex.right
       simp only [List.length_cons]
       omega)
end

/-! The merge walk: `mergeTwoObjects` (src/index.ts lines 574-608).  The
source has no container guard: `for..in` over a primitive iterates nothing,
but `hasOwnProperty` on a `null`/`undefined` receiver throws, hence the
`Except`.  `mergedObj` receives one assignment per key of `obj1` (first loop,
in `obj1` order) and one per key of `obj2` not owned by `obj1` (second loop),
all with pairwise distinct keys, so the assignments are rendered as list
concatenation. -/

mutual
def mergeTwoObjects (obj1 obj2 : JVal) : Except Unit JVal := do
  let fs1 ← mergeLoop1 (toFields obj1) obj2
  let fs2 ← mergeLoop2 (toFields obj2) obj1
  .ok (.obj (fs1 ++ fs2))
termination_by (jweight obj1 + jweight obj2, 1)
decreasing_by
  all_goals
    (have h1 := toFields_weight_lt obj1
     have h2 := toFields_weight_lt obj2
     exact Prod.Lex.left _ _ (by omega))
def mergeLoop1 (fields : List (String × JVal)) (obj2 : JVal) :
    Except Unit (List (String × JVal)) :=
  match fields with
  | [] => .ok []
  | (key, v1) :: rest => do
    let hb ← jsHasOwnProperty obj2 key
    let contrib ←
      if hb then
        let v2 := jsGet obj2 key
        if isArrJ v1 && isArrJ v2 then
          .ok [(key, JVal.arr (arrElems v1 ++ arrElems v2))]
        else if jsIsObject v1 then do
          let m ← mergeTwoObjects v1 v2
          .ok [(key, m)]
        else .ok [(key, v2)]
      else .ok [(key, v1)]
    let restFs ← mergeLoop1 rest obj2
    .ok (contrib ++ restFs)
termination_by (jweightFields fields + jweight obj2, 0)
decreasing_by
  all_goals
    first
    | (have w2 := jsGet_weight_le obj2 key
       simp only [jweightFields]
       exact Prod.Lex.left _ _ (by omega))
    | (simp only [jweightFields]
       exact Prod.Lex.left _ _ (by omega))
def mergeLoop2 (fields : List (String × JVal)) (obj1 : JVal) :
    Except Unit (List (String × JVal)) :=
  match fields with
  | [] => .ok []
  | (key, v2) :: rest => do
    let hb ← jsHasOwnProperty obj1 key
    let restFs ← mergeLoop2 rest obj1
    .ok ((if hb then [] else [(key, v2)]) ++ restFs)
termination_by (jweightFields fields + jweight obj1, 0)
decreasing_by
  all_goals
    (simp only [jweightFields]
     exact Prod.Lex.left _ _ (by omega))
end

/-! Flatten (src/index.ts lines 704-723).  The inner closure walks the tree
depth-first and performs `flattenObj[newKey] = value` writes; the writes, in
execution order, are `flattenWrites`, and the resulting accumulator object is
their left fold through JavaScript property assignment. -/

def flattenWrites : List (String × JVal) → String → List (String × JVal)
  | [], _ => []
  | (key, value) :: rest, pre =>
    let newKey := if pre ≠ "" then pre ++ "." ++ key else key
    (if jsIsObject value then flattenWrites (toFields value) newKey
     else [(newKey, value)]) ++ flattenWrites rest pre
termination_by fs _ => jweightFields fs
decreasing_by
  all_goals
    first
    | (simp only [jweightFields]
       refine lt_of_lt_of_le (toFields_weight_lt _) ?_
       omega)
    | (simp only [jweightFields]
       omega)

def transformToFlattenObject (v : JVal) : JVal :=
  if ¬ jsIsObject v then .undef
  else .obj ((flattenWrites (toFields v) "").foldl
    (fun acc p => objAssign acc p.1 p.2) [])

/-! Unflatten (src/index.ts lines 782-798). -/

/-- JavaScript `s.split(".")` on the underlying character list: splits at
every dot, adjacent dots produce empty pieces, and the empty string splits
to `[""]`. -/
def splitDots (cs : List Char) : List (List Char) :=
  match cs with
  | [] => [[]]
  | c :: rest =>
    if c = '.' then [] :: splitDots rest
    else
      match splitDots rest with
      | [] => [[c]]
      | piece :: pieces => (c :: piece) :: pieces

def jsSplit (s : String) : List String := (splitDots s.data).map List.asString

/-- Effect on the result tree of the `keys.reduce(...)` in
`transformToUnflattenObject`: walk/create intermediate plain objects for every
segment but the last (`acc[part] = acc[part] || {}` keeps an existing truthy
value) and assign the flat value at the last segment.  When an intermediate
segment holds a truthy non-object (a scalar, or an array, whose string-keyed
expando properties the tree model cannot represent), the remaining writes
happen outside the object graph being returned and the tree is unchanged;
no claim exercises those corners. -/
def setPath (fs : List (String × JVal)) (segs : List String) (v : JVal) :
    List (String × JVal) :=
  match segs with
  | [] => fs
  | [last] => objAssign fs last v
  | s :: rest =>
    let cur := objLookup fs s
    if jsTruthy cur then
      match cur with
      | .obj inner => objAssign fs s (.obj (setPath inner rest v))
      | _ => fs
    else objAssign fs s (.obj (setPath [] rest v))

def transformToUnflattenObject (v : JVal) : JVal :=
  if ¬ jsIsObject v then .undef
  else .obj ((toFields v).foldl (fun res p => setPath res (jsSplit p.1) p.2) [])

/-! Recursive key removal: `removeKeysFromObject` (src/index.ts lines
506-533). -/

mutual
def removeKeysFromObject : JVal → List String → JVal
  | .obj fs, keysToRemove => .obj (removeKeysFields fs keysToRemove)
  | .arr es, keysToRemove => .arr (removeKeysElems es keysToRemove)
  | v, _ => v
def removeKeysFields : List (String × JVal) → List String → List (String × JVal)
  | [], _ => []
  | (key, v) :: rest, keysToRemove =>
    if keysToRemove.contains key then removeKeysFields rest keysToRemove
    else
      let value := removeKeysFromObject v keysToRemove
      if isUndefJ value then removeKeysFields rest keysToRemove
      else (key, value) :: removeKeysFields rest keysToRemove
def removeKeysElems : List JVal → List String → List JVal
  | [], _ => []
  | e :: rest, keysToRemove =>
    removeKeysFromObject e keysToRemove :: removeKeysElems rest keysToRemove
end

/-! Path accessor: `getNestedValueOfObject` (src/index.ts lines 828-835).
The reducer is `(acc, part) => acc && acc[part]`: a falsy accumulator is
returned unchanged, a truthy one is indexed. -/

def getNestedValueOfObject (o : JVal) (path : String) : JVal :=
  if ¬ jsIsObject o then .undef
  else (jsSplit path).foldl
    (fun acc part => if jsTruthy acc then jsGet acc part else acc) o

/-! Heap model for the claims about reference identity and cycles.
Containers live at numeric addresses in a heap; a heap value is a scalar or a
reference.  Recursive operations take a fuel bound: a `none` result means the
recursion did not finish within the given fuel, so termination of a call is
the existence of a fuel making the result `some`. -/

/-- A JavaScript value in the heap model: a scalar or a reference. -/
inductive HVal : Type where
  | undef : HVal
  | null : HVal
  | bool : Bool → HVal
  | num : Int → HVal
  | str : String → HVal
  | ref : Nat → HVal

/-- A heap node: a plain object or an array, with its `Object.freeze` flag. -/
inductive Node : Type where
  | objN : List (String × HVal) → Bool → Node
  | arrN : List HVal → Bool → Node

abbrev Heap : Type := List (Nat × Node)

def heapLookup (h : Heap) (a : Nat) : Option Node :=
  match h with
  | [] => none
  | p :: rest => if p.1 = a then some p.2 else heapLookup rest a

def hArrEnum : List HVal → Nat → List (String × HVal)
  | [], _ => []
  | e :: rest, i => (toString i, e) :: hArrEnum rest (i + 1)

/-- Own enumerable properties of the referenced node (`for..in` order). -/
def refFields (h : Heap) : HVal → List (String × HVal)
  | .ref a =>
    match heapLookup h a with
    | some (.objN fs _) => fs
    | some (.arrN es _) => hArrEnum es 0
    | none => []
  | _ => []

/-- The local `isObject` of `getAllObjectKeys`: non-null, `typeof` object and
not an array. -/
def isPlainRef (h : Heap) : HVal → Bool
  | .ref a =>
    match heapLookup h a with
    | some (.objN _ _) => true
    | _ => false
  | _ => false

/-- The library's `isObject` on heap values: any non-null object, arrays
included. -/
def isRefObject (h : Heap) : HVal → Bool
  | .ref a => (heapLookup h a).isSome
  | _ => false

def weakSetHas (visited : List Nat) : HVal → Bool
  | .ref a => visited.contains a
  | _ => false

/-- `WeakSet.prototype.add`: accepts only objects; adding a primitive
(`null`, `undefined`, a number, a string, a boolean) throws a TypeError. -/
def weakSetAdd (visited : List Nat) : HVal → Except Unit (List Nat)
  | .ref a => .ok (a :: visited)
  | _ => .error ()

/-! Key enumeration: `getAllObjectKeys` (src/index.ts lines 323-353),
with its per-call `visited` WeakSet threaded through the recursion. -/

mutual
def getAllObjectKeys (h : Heap) : Nat → HVal → String → List Nat →
    Option (Except Unit (List String × List Nat))
  | 0, _, _, _ => none
  | fuel + 1, obj, parentKey, visited =>
    if weakSetHas visited obj then some (.ok ([], visited))
    else
      match weakSetAdd visited obj with
      | .error e => some (.error e)
      | .ok visited1 =>
        if isPlainRef h obj then
          getAllKeysLoop h fuel (refFields h obj) parentKey visited1
        else some (.ok ([], visited1))
termination_by fuel _ _ _ => (fuel, 0)
decreasing_by
  exact Prod.Lex.left _ _ (by omega)
def getAllKeysLoop (h : Heap) : Nat → List (String × HVal) → String → List Nat →
    Option (Except Unit (List String × List Nat))
  | _, [], _, visited => some (.ok ([], visited))
  | fuel, (key, value) :: rest, parentKey, visited =>
    let fullKey := if parentKey ≠ "" then parentKey ++ "." ++ key else key
    if isPlainRef h value then
      match getAllObjectKeys h fuel value fullKey visited with
      | none => none
      | some (.error e) => some (.error e)
      | some (.ok (ks, visited2)) =>
        match getAllKeysLoop h fuel rest parentKey visited2 with
        | none => none
        | some (.error e) => some (.error e)
        | some (.ok (ks2, visited3)) => some (.ok (ks ++ ks2, visited3))
    else
      match getAllKeysLoop h fuel rest parentKey visited with
      | none => none
      | some (.error e) => some (.error e)
      | some (.ok (ks2, visited2)) => some (.ok (fullKey :: ks2, visited2))
termination_by fuel fs _ _ => (fuel, fs.length + 1)
decreasing_by
  all_goals
    first
    | exact Prod.Lex.right _ (by omega)
    | (apply Prod.Lex.right
       simp only [List.length_cons]
       omega)
end

/-! Deep clone: `cloneObject` (src/index.ts lines 199-231).  The per-call
`clonedObjects` WeakMap maps input addresses to output addresses; the clone of
a container is allocated empty at a fresh address, registered in the map
*before* its properties are cloned, and its properties are then assigned one
by one — exactly the discipline that re-links cycles. -/

structure CloneSt where
  heap : Heap
  next : Nat
  cmap : List (Nat × Nat)

def lookupNat (m : List (Nat × Nat)) (a : Nat) : Option Nat :=
  match m with
  | [] => none
  | p :: rest => if p.1 = a then some p.2 else lookupNat rest a

def nodeFields : Node → List (String × HVal)
  | .objN fs _ => fs
  | .arrN es _ => hArrEnum es 0

/-- Property assignment `output[key] = v` on the freshly allocated output
node: keys arrive in enumeration order and are new, so they append (for the
array clone the indices arrive in order, so elements append likewise). -/
def nodeAppendField : Node → String → HVal → Node
  | .objN fs fz, key, v => .objN (fs ++ [(key, v)]) fz
  | .arrN es fz, _, v => .arrN (es ++ [v]) fz

def heapSetNode (h : Heap) (a : Nat) (n : Node) : Heap :=
  h.map (fun p => if p.1 = a then (a, n) else p)

def setOutField (st : CloneSt) (o : Nat) (key : String) (v : HVal) : CloneSt :=
  match heapLookup st.heap o with
  | some n => ⟨heapSetNode st.heap o (nodeAppendField n key v), st.next, st.cmap⟩
  | none => st

mutual
def cloneRun : Nat → HVal → CloneSt → Option (HVal × CloneSt)
  | 0, _, _ => none
  | fuel + 1, input, st =>
    match input with
    | .ref a =>
      match lookupNat st.cmap a with
      | some o => some (.ref o, st)
      | none =>
        match heapLookup st.heap a with
        | none => none
        | some node =>
          let o := st.next
          let empty : Node :=
            match node with
            | .objN _ _ => .objN [] false
            | .arrN _ _ => .arrN [] false
          let st1 : CloneSt := ⟨st.heap ++ [(o, empty)], o + 1, st.cmap ++ [(a, o)]⟩
          cloneLoop fuel (nodeFields node) o st1
    | prim => some (prim, st)
termination_by fuel _ _ => (fuel, 0)
decreasing_by
  exact Prod.Lex.left _ _ (by omega)
def cloneLoop : Nat → List (String × HVal) → Nat → CloneSt → Option (HVal × CloneSt)
  | _, [], o, st => some (.ref o, st)
  | fuel, (key, v) :: rest, o, st =>
    match cloneRun fuel v st with
    | none => none
    | some (v2, st2) => cloneLoop fuel rest o (setOutField st2 o key v2)
termination_by fuel fs _ _ => (fuel, fs.length + 1)
decreasing_by
  all_goals
    first
    | exact Prod.Lex.right _ (by omega)
    | (apply Prod.Lex.right
       simp only [List.length_cons]
       omega)
end

/-- `cloneObject(v)` on heap `h` whose addresses all lie below `nxt`: run the
inner closure with a fresh `clonedObjects` map, allocating clones from `nxt`
up. -/
def cloneObject (h : Heap) (nxt : Nat) (v : HVal) (fuel : Nat) :
    Option (HVal × CloneSt) :=
  cloneRun fuel v ⟨h, nxt, []⟩

/-! Deep freeze: `deepFreezeObject` (src/index.ts lines 849-864).  Note: the
source has no `visited` set of any kind — the recursion is guarded only by
`isObject(value)`. -/

def nodeFreeze : Node → Node
  | .objN fs _ => .objN fs true
  | .arrN es _ => .arrN es true

def freezeAt (h : Heap) : HVal → Heap
  | .ref a => heapSetNode h a (match heapLookup h a with
      | some n => nodeFreeze n
      | none => .objN [] true)
  | _ => h

mutual
def deepFreezeObject : Nat → Heap → HVal → Option (Heap × HVal)
  | 0, _, _ => none
  | fuel + 1, h, v =>
    if ¬ isRefObject h v then some (h, .undef)
    else
      let h1 := freezeAt h v
      deepFreezeLoop fuel h1 (refFields h1 v) v
termination_by fuel _ _ => (fuel, 0)
decreasing_by
  exact Prod.Lex.left _ _ (by omega)
def deepFreezeLoop : Nat → Heap → List (String × HVal) → HVal → Option (Heap × HVal)
  | _, h, [], v => some (h, v)
  | fuel, h, (_, value) :: rest, v =>
    if isRefObject h value then
      match deepFreezeObject fuel h value with
      | none => none
      | some (h2, _) => deepFreezeLoop fuel h2 rest v
    else deepFreezeLoop fuel h rest v
termination_by fuel _ fs _ => (fuel, fs.length + 1)
decreasing_by
  all_goals
    first
    | exact Prod.Lex.right _ (by omega)
    | (apply Prod.Lex.right
       simp only [List.length_cons]
       omega)
end

/-- The heap produced by `const a = {}; a.self = a;`: a single object at
address 0 whose own property `self` refers back to address 0. -/
def cycHeap : Heap := [(0, .objN [("self", .ref 0)] false)]

/-- The same heap after `Object.freeze(a)`. -/
def cycHeapFrozen : Heap := [(0, .objN [("self", .ref 0)] true)]

/-- Termination of `deepFreezeObject(a)` on the cyclic input, in the fuel
semantics: some fuel bound suffices for the call to return. -/
def deepFreezeCycTerminates : Prop :=
  ∃ fuel, (deepFreezeObject fuel cycHeap (.ref 0)).isSome

/-! Computation rules.  The well-founded definitions above do not reduce
definitionally; the following equations re-express them in directly
computable form for use by `simp` and `decide`-style reasoning. -/

theorem all_attach_eq {α : Type} (l : List α) (f : α → Bool) :
    l.attach.all (fun x => f x.1) = l.all f := by
  by_cases h : l.all f = true
  · rw [h]
    rw [List.all_eq_true] at h
    rw [List.all_eq_true]
    intro x _
    exact h x.1 x.2
  · have hf : l.all f = false := by
      revert h; cases l.all f <;> simp
    rw [hf]
    rw [List.all_eq_true] at h
    push_neg at h
    obtain ⟨a, ha, hfa⟩ := h
    have : ¬ (l.attach.all (fun x => f x.1) = true) := by
      intro hc
      rw [List.all_eq_true] at hc
      exact hfa (hc ⟨a, ha⟩ (List.mem_attach l ⟨a, ha⟩))
    revert this; cases l.attach.all (fun x => f x.1) <;> simp

theorem isObjectDeepEqual_arr_arr (es1 es2 : List JVal) :
    isObjectDeepEqual (.arr es1) (.arr es2) =
      (if es1.length ≠ es2.length then false
       else (es1.zip es2).all (fun p => isObjectDeepEqual p.1 p.2)) := by
  rw [isObjectDeepEqual]
  simp only [jsTypeof, ne_eq, not_true_eq_false, if_false, ite_false]
  rw [all_attach_eq (es1.zip es2) (fun p => isObjectDeepEqual p.1 p.2)]

theorem isObjectDeepEqual_obj_obj (fs1 fs2 : List (String × JVal)) :
    isObjectDeepEqual (.obj fs1) (.obj fs2) =
      (if (fs1.map Prod.fst).length ≠ (fs2.map Prod.fst).length then false
       else (fs1.map Prod.fst).all
         (fun k => isObjectDeepEqual (jsGet (.obj fs1) k) (jsGet (.obj fs2) k))) := by
  rw [isObjectDeepEqual]
  simp only [jsTypeof, ne_eq, not_true_eq_false, if_false, ite_false]
  rw [all_attach_eq (fs1.map Prod.fst)
    (fun k => isObjectDeepEqual (jsGet (.obj fs1) k) (jsGet (.obj fs2) k))]

theorem isObjectDeepEqual_scalar (o1 o2 : JVal)
    (h1 : jsIsObject o1 = false ∨ jsIsObject o2 = false) :
    isObjectDeepEqual o1 o2 =
      (if jsTypeof o1 ≠ jsTypeof o2 then false else jsStrictEq o1 o2) := by
  cases o1 <;> cases o2 <;>
    first
    | ((rw [isObjectDeepEqual.eq_def]) <;> rfl)
    | (simp [jsIsObject] at h1)

example : isObjectDeepEqual (.obj [("x", .undef)]) (.obj [("z", .num 2)]) = true := by
  simp [isObjectDeepEqual_obj_obj, isObjectDeepEqual_scalar, jsGet, objLookup,
    jsTypeof, jsStrictEq, jsIsObject]

example : isObjectDeepEqual (.obj [("a", .num 1)]) (.obj [("a", .num 2)]) = false := by
  simp [isObjectDeepEqual_obj_obj, isObjectDeepEqual_scalar, jsGet, objLookup,
    jsTypeof, jsStrictEq, jsIsObject]

/-! Step equations for the diff walk. -/

theorem diffKeys_nil (objA objB : JVal) (dacc : List (String × JVal)) :
    diffKeys [] objA objB dacc = .ok dacc := by
  rw [diffKeys.eq_def]

theorem diffKeys_cons_added {objA objB : JVal} {key : String}
    (rest : List String) (dacc : List (String × JVal)) {bB : Bool}
    (hA : jsHasIn objA key = .ok false) (hB : jsHasIn objB key = .ok bB) :
    diffKeys (key :: rest) objA objB dacc =
      diffKeys rest objA objB (objAssign dacc key (jsGet objB key)) := by
  rw [diffKeys.eq_def]
  simp [hA, hB, bind, Except.bind]

theorem diffKeys_cons_removed {objA objB : JVal} {key : String}
    (rest : List String) (dacc : List (String × JVal))
    (hA : jsHasIn objA key = .ok true) (hB : jsHasIn objB key = .ok false) :
    diffKeys (key :: rest) objA objB dacc =
      diffKeys rest objA objB (objAssign dacc key .undef) := by
  rw [diffKeys.eq_def]
  simp [hA, hB, bind, Except.bind]

theorem diffKeys_cons_same {objA objB : JVal} {key : String}
    (rest : List String) (dacc : List (String × JVal))
    (hA : jsHasIn objA key = .ok true) (hB : jsHasIn objB key = .ok true)
    (he : jsStrictEq (jsGet objA key) (jsGet objB key) = true) :
    diffKeys (key :: rest) objA objB dacc = diffKeys rest objA objB dacc := by
  rw [diffKeys.eq_def]
  simp [hA, hB, he, bind, Except.bind]

theorem diffKeys_cons_nested {objA objB : JVal} {key : String}
    (rest : List String) (dacc : List (String × JVal)) {nested : JVal}
    {nk : List String}
    (hA : jsHasIn objA key = .ok true) (hB : jsHasIn objB key = .ok true)
    (he : jsStrictEq (jsGet objA key) (jsGet objB key) = false)
    (hoA : jsIsObject (jsGet objA key) = true)
    (hoB : jsIsObject (jsGet objB key) = true)
    (hn : getObjectDiffIterative (jsGet objA key) (jsGet objB key) = .ok nested)
    (hk : jsObjectKeys nested = .ok nk) :
    diffKeys (key :: rest) objA objB dacc =
      (if nk.length > 0 then diffKeys rest objA objB (objAssign dacc key nested)
       else diffKeys rest objA objB dacc) := by
  rw [diffKeys.eq_def]
  simp [hA, hB, he, hoA, hoB, hn, hk, bind, Except.bind]

theorem diffKeys_cons_replaced {objA objB : JVal} {key : String}
    (rest : List String) (dacc : List (String × JVal))
    (hA : jsHasIn objA key = .ok true) (hB : jsHasIn objB key = .ok true)
    (he : jsStrictEq (jsGet objA key) (jsGet objB key) = false)
    (ho : (jsIsObject (jsGet objA key) && jsIsObject (jsGet objB key)) = false) :
    diffKeys (key :: rest) objA objB dacc =
      diffKeys rest objA objB (objAssign dacc key (jsGet objB key)) := by
  rw [diffKeys.eq_def]
  simp [hA, hB, he, ho, bind, Except.bind]

theorem getObjectDiffIterative_obj_obj (f g : List (String × JVal)) :
    getObjectDiffIterative (.obj f) (.obj g) =
      (diffKeys (setUnion (f.map Prod.fst) (g.map Prod.fst))
        (.obj f) (.obj g) []).map JVal.obj := by
  rw [getObjectDiffIterative.eq_def]
  simp only [isNullJ, Bool.and_self, Bool.false_eq_true, if_false, ite_false,
    jsObjectKeys, bind, Except.bind]
  cases diffKeys (setUnion (f.map Prod.fst) (g.map Prod.fst)) (.obj f) (.obj g) [] with
  | error e => rfl
  | ok v => rfl

theorem getObjectDiffIterative_arr_arr (es1 es2 : List JVal) :
    getObjectDiffIterative (.arr es1) (.arr es2) =
      (diffKeys (setUnion ((List.range es1.length).map toString)
          ((List.range es2.length).map toString))
        (.arr es1) (.arr es2) []).map JVal.obj := by
  rw [getObjectDiffIterative.eq_def]
  simp only [isNullJ, Bool.and_self, Bool.false_eq_true, if_false, ite_false,
    jsObjectKeys, bind, Except.bind]
  cases diffKeys (setUnion ((List.range es1.length).map toString)
      ((List.range es2.length).map toString)) (.arr es1) (.arr es2) [] with
  | error e => rfl
  | ok v => rfl

/-! Small computation facts used when evaluating the walks on concrete data. -/

theorem tosNat0 : toString (0 : Nat) = "0" := rfl
theorem tosNat1 : toString (1 : Nat) = "1" := rfl
theorem tosNat2 : toString (2 : Nat) = "2" := rfl
theorem rangeNat2 : List.range 2 = [0, 1] := rfl
theorem rangeNat3 : List.range 3 = [0, 1, 2] := rfl

/-- Evaluation of the diff on the unequal-length array pair `[1,2,3]` vs
`[1,2]`: the result is a plain object keyed by the stringified index `"2"`,
holding the removal marker. -/
theorem diff_arr123_arr12 :
    getObjectDiffIterative (.arr [.num 1, .num 2, .num 3]) (.arr [.num 1, .num 2]) =
    .ok (.obj [("2", .undef)]) := by
  rw [getObjectDiffIterative_arr_arr]
  simp only [List.length_cons, List.length_nil, rangeNat2, rangeNat3,
    tosNat0, tosNat1, tosNat2, List.map, setUnion, List.foldl, List.contains,
    List.elem, List.append_nil, List.nil_append, List.cons_append,
    String.reduceBEq, String.reduceEq, reduceIte,
    Bool.false_eq_true, Bool.true_eq_false, if_false, if_true]
  rw [diffKeys_cons_same _ _ (by rfl) (by rfl) (by rfl)]
  rw [diffKeys_cons_same _ _ (by rfl) (by rfl) (by rfl)]
  rw [diffKeys_cons_removed _ _ (by rfl) (by rfl)]
  rw [diffKeys_nil]
  rfl

/-- C4: the claim (and the function's own doc comment) says that for
list-like containers of unequal length the whole `after` list replaces
`before` as the branch's contribution.  Evaluating the code on
`{a: [1,2,3]}` vs `{a: [1,2]}` shows the actual behaviour: the version at
lines 253-300 has no array special-casing at all, so the branch yields the
plain map `{"2": undefined}` keyed by the stringified index — not the
replacement array `[1,2]`. -/
theorem C4_theorem :
    getObjectDiffIterative (.obj [("a", .arr [.num 1, .num 2, .num 3])])
      (.obj [("a", .arr [.num 1, .num 2])]) =
    .ok (.obj [("a", .obj [("2", .undef)])]) := by
  rw [getObjectDiffIterative_obj_obj]
  simp only [List.map, setUnion, List.foldl, List.contains, List.elem,
    List.append_nil, List.nil_append, List.cons_append,
    String.reduceBEq, String.reduceEq, reduceIte,
    Bool.false_eq_true, Bool.true_eq_false, if_false, if_true]
  rw [diffKeys_cons_nested _ _ (by rfl) (by rfl) (by rfl) (by rfl) (by rfl)
    (by exact diff_arr123_arr12) (by rfl)]
  simp only [List.length_cons, List.length_nil, gt_iff_lt, Nat.zero_lt_succ,
    if_true, reduceIte]
  rw [diffKeys_nil]
  rfl

/-! Claims C1 and C2: cycle termination and the WeakSet TypeError. -/

def isRefH : HVal → Bool
  | .ref _ => true
  | _ => false

theorem deepFreeze_cycFrozen_none :
    ∀ n, deepFreezeObject n cycHeapFrozen (.ref 0) = none := by
  intro n
  induction n with
  | zero => rw [deepFreezeObject.eq_def]
  | succ m ih =>
    rw [deepFreezeObject.eq_def]
    simp only [cycHeapFrozen] at ih
    simp [isRefObject, heapLookup, cycHeapFrozen, freezeAt, heapSetNode,
      nodeFreeze, refFields, deepFreezeLoop.eq_def, ih]

theorem deepFreeze_cyc_none :
    ∀ n, deepFreezeObject n cycHeap (.ref 0) = none := by
  intro n
  cases n with
  | zero => rw [deepFreezeObject.eq_def]
  | succ m =>
    have hm := deepFreeze_cycFrozen_none m
    rw [deepFreezeObject.eq_def]
    simp only [cycHeapFrozen] at hm
    simp [isRefObject, heapLookup, cycHeap, freezeAt, heapSetNode,
      nodeFreeze, refFields, deepFreezeLoop.eq_def, hm]

/-- C1: the claim asserts that on the cyclic input `a = {}; a.self = a`
*all three* of `getAllObjectKeys`, `cloneObject` and `deepFreezeObject`
terminate thanks to the per-call VisitedSet discipline.  It is false for
`deepFreezeObject`: the function at lines 849-864 has no visited set of any
kind, so on the self-loop it recurses forever — in the fuel semantics, no
fuel bound ever suffices for the call to return. -/
theorem C1_counterexample : ¬ deepFreezeCycTerminates := by
  intro hterm
  obtain ⟨n, hn⟩ := hterm
  rw [deepFreeze_cyc_none n] at hn
  simp [Option.isSome] at hn

/-- C1 (amended): on the cyclic input `a = {}; a.self = a`, `getAllObjectKeys`
terminates (its per-call visited WeakSet stops the second visit, yielding the
empty key list) and `cloneObject` terminates (its WeakMap returns the
already-allocated clone on the second visit), but `deepFreezeObject` — which
has no visited set — does not terminate: no fuel bound makes it return. -/
theorem C1_amended :
    getAllObjectKeys cycHeap 2 (.ref 0) "" [] = some (.ok ([], [0])) ∧
    cloneObject cycHeap 1 (.ref 0) 2 =
      some (.ref 1, ⟨cycHeap ++ [(1, .objN [("self", .ref 1)] false)], 2, [(0, 1)]⟩) ∧
    ¬ deepFreezeCycTerminates := by
  refine ⟨?_, ?_, ?_⟩
  · simp [getAllObjectKeys.eq_def, getAllKeysLoop.eq_def, weakSetHas, weakSetAdd,
      isPlainRef, heapLookup, refFields, cycHeap, List.contains, List.elem]
  · simp [cloneObject, cloneRun.eq_def, cloneLoop.eq_def, lookupNat, heapLookup,
      nodeFields, setOutField, heapSetNode, nodeAppendField, cycHeap]
  · intro hterm
    obtain ⟨n, hn⟩ := hterm
    rw [deepFreeze_cyc_none n] at hn
    simp [Option.isSome] at hn

/-- C2: the claim says no core operation throws, and in particular that
`getAllObjectKeys` applied to any non-container returns without raising an
error.  Evaluating the code on the number `42` shows it throws: the function
calls `visited.add(obj)` *before* its `isObject` check, and `WeakSet.add`
rejects primitives with a TypeError. -/
theorem C2_counterexample :
    getAllObjectKeys [] 1 (.num 42) "" [] = some (.error ()) := by
  simp [getAllObjectKeys.eq_def, weakSetHas, weakSetAdd]

/-- C2 (amended): `getAllObjectKeys` applied to any non-container value (a
number, string, boolean, `null` or `undefined`) does not degrade to a
sentinel: it throws a TypeError, because the value is added to the per-call
visited WeakSet before the `isObject` check and `WeakSet.add` rejects
primitives.  (The blanket no-throw policy of the spec therefore does not hold
of every core operation.) -/
theorem C2_amended (h : Heap) (fuel : Nat) (v : HVal) (pk : String)
    (vis : List Nat) (hv : isRefH v = false) :
    getAllObjectKeys h (fuel + 1) v pk vis = some (.error ()) := by
  cases v <;> simp [getAllObjectKeys.eq_def, weakSetHas, weakSetAdd] <;>
    simp [isRefH] at hv

/-- C2 witness: the number `42` is not a container and the call throws. -/
theorem C2_witness :
    isRefH (.num 42) = false ∧
    getAllObjectKeys [] 1 (.num 42) "" [] = some (.error ()) :=
  ⟨rfl, C2_amended [] 0 (.num 42) "" [] rfl⟩

/-! Claim C6: clone re-links cycles. -/

theorem heapLookup_some_exists {h : Heap} {a : Nat} {n : Node}
    (ha : heapLookup h a = some n) : ∃ p ∈ h, p.1 = a := by
  induction h with
  | nil => simp [heapLookup] at ha
  | cons p rest ih =>
    by_cases hp : p.1 = a
    · exact ⟨p, List.mem_cons_self _ _, hp⟩
    · simp only [heapLookup, if_neg hp] at ha
      obtain ⟨q, hq, he⟩ := ih ha
      exact ⟨q, List.mem_cons_of_mem _ hq, he⟩

theorem heapLookup_append_not_mem {h l : Heap} {x : Nat}
    (hx : ∀ p ∈ h, p.1 ≠ x) : heapLookup (h ++ l) x = heapLookup l x := by
  induction h with
  | nil => simp
  | cons p rest ih =>
    have hp := hx p (List.mem_cons_self _ _)
    simp only [List.cons_append, heapLookup, if_neg hp]
    exact ih (fun q hq => hx q (List.mem_cons_of_mem _ hq))

theorem heapLookup_setNode_self {hh : Heap} {x : Nat} {m n : Node}
    (hm : heapLookup hh x = some m) :
    heapLookup (heapSetNode hh x n) x = some n := by
  induction hh with
  | nil => simp [heapLookup] at hm
  | cons p rest ih =>
    by_cases hp : p.1 = x
    · simp [heapSetNode, heapLookup, hp]
    · simp only [heapLookup, if_neg hp] at hm
      simp only [heapSetNode, List.map, if_neg hp, heapLookup]
      simpa [heapSetNode] using ih hm

theorem cloneRun_prim {fuel : Nat} {st : CloneSt} {v : HVal}
    (hv : isRefH v = false) : cloneRun (fuel + 1) v st = some (v, st) := by
  cases v <;> simp [cloneRun.eq_def] <;> simp [isRefH] at hv

theorem cloneRun_ref_hit {fuel : Nat} {st : CloneSt} {a o : Nat}
    (h1 : lookupNat st.cmap a = some o) :
    cloneRun (fuel + 1) (.ref a) st = some (.ref o, st) := by
  rw [cloneRun.eq_def]
  simp [h1]

theorem cloneRun_ref_fresh {fuel : Nat} {st : CloneSt} {a : Nat} {node : Node}
    (h1 : lookupNat st.cmap a = none) (h2 : heapLookup st.heap a = some node) :
    cloneRun (fuel + 1) (.ref a) st =
      cloneLoop fuel (nodeFields node) st.next
        ⟨st.heap ++ [(st.next,
            match node with
            | .objN _ _ => .objN [] false
            | .arrN _ _ => .arrN [] false)],
          st.next + 1, st.cmap ++ [(a, st.next)]⟩ := by
  rw [cloneRun.eq_def]
  simp only [h1, h2]
  cases node <;> rfl

theorem cloneLoop_nil {fuel : Nat} {o : Nat} {st : CloneSt} :
    cloneLoop fuel [] o st = some (.ref o, st) := by
  rw [cloneLoop.eq_def]

theorem cloneLoop_cons {fuel : Nat} {o : Nat} {st st2 : CloneSt} {key : String}
    {v v2 : HVal} {rest : List (String × HVal)}
    (hv : cloneRun fuel v st = some (v2, st2)) :
    cloneLoop fuel ((key, v) :: rest) o st =
      cloneLoop fuel rest o (setOutField st2 o key v2) := by
  rw [cloneLoop.eq_def]
  simp [hv]

/-- C6: cyclic inputs are cloned into equally cyclic, consistently re-linked
outputs.  For any heap containing a self-referencing object
`a = {self: a}` and any fresh output address, `cloneObject` returns a fresh
object `c` with `c.self === c` (the clone points at itself, not at the
original) and `c !== a`; concretely this instantiates to
`a = {}; a.self = a; c = cloneObject(a)` giving `c.self === c ∧ c !== a`. -/
theorem C6_theorem (h : Heap) (a nxt : Nat) (fz : Bool)
    (ha : heapLookup h a = some (.objN [("self", .ref a)] fz))
    (hfresh : ∀ p ∈ h, p.1 ≠ nxt) :
    ∃ st : CloneSt,
      cloneObject h nxt (.ref a) 2 = some (.ref nxt, st) ∧
      heapLookup st.heap nxt = some (.objN [("self", .ref nxt)] false) ∧
      nxt ≠ a := by
  have hane : nxt ≠ a := by
    obtain ⟨p, hp, he⟩ := heapLookup_some_exists ha
    intro hcontra
    exact hfresh p hp (by rw [he, hcontra])
  have hstep1 : lookupNat ([] : List (Nat × Nat)) a = none := rfl
  rw [cloneObject, cloneRun_ref_fresh hstep1 ha]
  simp only [nodeFields]
  have hhit : lookupNat (([] : List (Nat × Nat)) ++ [(a, nxt)]) a = some nxt := by
    simp [lookupNat]
  rw [cloneLoop_cons (cloneRun_ref_hit hhit)]
  have hlook0 : heapLookup (h ++ [(nxt, Node.objN [] false)]) nxt =
      some (.objN [] false) := by
    rw [heapLookup_append_not_mem hfresh]
    simp [heapLookup]
  refine ⟨setOutField ⟨h ++ [(nxt, Node.objN [] false)], nxt + 1, [(a, nxt)]⟩
      nxt "self" (.ref nxt), ?_, ?_, hane⟩
  · rw [cloneLoop_nil]
    simp
  · simp only [setOutField, hlook0, nodeAppendField, List.nil_append]
    exact heapLookup_setNode_self hlook0

/-- C6 witness: the concrete heap of `a = {}; a.self = a` with output address
1. -/
theorem C6_witness :
    ∃ st : CloneSt,
      cloneObject cycHeap 1 (.ref 0) 2 = some (.ref 1, st) ∧
      heapLookup st.heap 1 = some (.objN [("self", .ref 1)] false) ∧
      (1 : Nat) ≠ 0 := by
  have hfresh : ∀ p ∈ cycHeap, p.1 ≠ 1 := by
    intro p hp
    simp only [cycHeap, List.mem_singleton] at hp
    subst hp
    simp
  exact C6_theorem cycHeap 0 1 false rfl hfresh

/-! Claim C9: the path accessor. -/

theorem splitDots_ne_nil (cs : List Char) : splitDots cs ≠ [] := by
  cases cs with
  | nil => simp [splitDots]
  | cons c rest =>
    rw [splitDots.eq_def]
    by_cases hc : c = '.'
    · simp [hc]
    · simp only [if_neg hc]
      cases splitDots rest <;> simp

theorem splitDots_append_dot (xs ys : List Char) :
    splitDots (xs ++ '.' :: ys) = splitDots xs ++ splitDots ys := by
  induction xs with
  | nil =>
    simp only [List.nil_append]
    rw [splitDots.eq_def]
    simp [splitDots]
  | cons c rest ih =>
    by_cases hc : c = '.'
    · subst hc
      simp only [List.cons_append]
      rw [splitDots.eq_def, splitDots.eq_def ('.' :: rest)]
      simp [ih]
    · simp only [List.cons_append]
      rw [splitDots.eq_def, splitDots.eq_def (c :: rest)]
      simp only [if_neg hc, ih]
      obtain ⟨piece, pieces, hsplit⟩ :
          ∃ piece pieces, splitDots rest = piece :: pieces := by
        cases hs : splitDots rest with
        | nil => exact absurd hs (splitDots_ne_nil rest)
        | cons piece pieces => exact ⟨piece, pieces, rfl⟩
      rw [hsplit]
      simp

theorem jsSplit_append_dot (p q : String) :
    jsSplit (p ++ "." ++ q) = jsSplit p ++ jsSplit q := by
  unfold jsSplit
  have hdata : (p ++ "." ++ q).data = p.data ++ '.' :: q.data := by
    rw [String.data_append, String.data_append]
    have hdot : (".".data : List Char) = ['.'] := by decide
    rw [hdot, List.append_assoc]
    rfl
  rw [hdata, splitDots_append_dot, List.map_append]

theorem nestedFold_falsy (l : List String) (acc : JVal)
    (h : jsTruthy acc = false) :
    l.foldl (fun acc part => if jsTruthy acc then jsGet acc part else acc) acc = acc := by
  induction l with
  | nil => rfl
  | cons s rest ih => simp only [List.foldl, h, if_false, Bool.false_eq_true, ite_false, ih]

/-- C9: the claim says `getNestedValueOfObject` short-circuits to the absent
sentinel (`undefined`) the moment an intermediate value is not indexable, and
that the empty path always yields absent.  Both parts fail: the reducer is
`acc && acc[part]`, so a *falsy* intermediate (here `null`) is returned
as-is, not as `undefined`. -/
theorem C9_counterexample :
    getNestedValueOfObject (.obj [("a", .null)]) "a.b" = .null := rfl

/-- C9 (amended): `getNestedValueOfObject` splits the path on `.` and folds
`acc && acc[part]` across the segments starting at the root.  A non-container
root yields `undefined`; once the accumulator is falsy (`undefined`, `null`,
`0`, `""`, `false`) it is returned unchanged — extending the path further
does not change the result, so a falsy intermediate is returned itself rather
than the absent sentinel; and the empty path does not short-circuit: it reads
the root's empty-string key (absent for ordinary objects, but the owned value
when the root owns the key `""`). -/
theorem C9_amended :
    (∀ (root : JVal) (path : String), jsIsObject root = false →
        getNestedValueOfObject root path = .undef) ∧
    (∀ (root : JVal) (p q : String), jsIsObject root = true →
        jsTruthy (getNestedValueOfObject root p) = false →
        getNestedValueOfObject root (p ++ "." ++ q) = getNestedValueOfObject root p) ∧
    (∀ root : JVal, jsIsObject root = true →
        getNestedValueOfObject root "" = jsGet root "") := by
  refine ⟨?_, ?_, ?_⟩
  · intro root path hroot
    simp [getNestedValueOfObject, hroot]
  · intro root p q hroot hfalsy
    simp only [getNestedValueOfObject, hroot, Bool.not_true, Bool.false_eq_true,
      if_false, ite_false, reduceIte] at hfalsy ⊢
    rw [jsSplit_append_dot, List.foldl_append]
    exact nestedFold_falsy _ _ hfalsy
  · intro root hroot
    simp only [getNestedValueOfObject, hroot, Bool.not_true, Bool.false_eq_true,
      if_false, ite_false, reduceIte]
    have hsplit : jsSplit "" = [""] := rfl
    rw [hsplit]
    simp only [List.foldl]
    have htr : jsTruthy root = true := by
      cases root <;> simp [jsIsObject] at hroot <;> simp [jsTruthy]
    simp [htr]

/-- C9 witness: a non-container root, the falsy intermediate `null`, and an
empty path on a root owning no empty-string key. -/
theorem C9_witness :
    getNestedValueOfObject (.num 5) "a" = .undef ∧
    getNestedValueOfObject (.obj [("a", .null)]) ("a" ++ "." ++ "b") =
      getNestedValueOfObject (.obj [("a", .null)]) "a" ∧
    getNestedValueOfObject (.obj [("x", .num 1)]) "" =
      jsGet (.obj [("x", .num 1)]) "" :=
  ⟨C9_amended.1 (.num 5) "a" rfl,
   C9_amended.2.1 (.obj [("a", .null)]) "a" "b" rfl (by rfl),
   C9_amended.2.2 (.obj [("x", .num 1)]) rfl⟩

/-! Claim C10: `removeKeysFromObject` also drops keys whose processed value
is `undefined`. -/

theorem removeKeysFields_keys_subset {fs : List (String × JVal)}
    {ks : List String} {k : String}
    (h : objHasKey (removeKeysFields fs ks) k = true) : k ∈ fs.map Prod.fst := by
  induction fs with
  | nil => simp [removeKeysFields, objHasKey] at h
  | cons p rest ih =>
    obtain ⟨key, v⟩ := p
    simp only [removeKeysFields] at h
    by_cases hc : ks.contains key
    · rw [if_pos hc] at h
      exact List.mem_cons_of_mem _ (ih h)
    · rw [if_neg hc] at h
      by_cases hu : isUndefJ (removeKeysFromObject v ks)
      · rw [if_pos hu] at h
        exact List.mem_cons_of_mem _ (ih h)
      · rw [if_neg hu] at h
        simp only [objHasKey, List.any_cons] at h
        rcases Bool.or_eq_true_iff.mp h with h1 | h1
        · simp only [decide_eq_true_eq] at h1
          simp [h1]
        · exact List.mem_cons_of_mem _ (ih h1)

/-- C10: for every map-like input, `removeKeysFromObject` drops every key
whose recursively processed value is the `undefined` sentinel, even when the
key's name is not in the removal list: the guard `value !== undefined` runs
for every surviving key, whatever `keysToRemove` contains. -/
theorem C10_theorem (fs : List (String × JVal)) (ks : List String)
    (k : String) (v : JVal)
    (hnodup : (fs.map Prod.fst).Nodup)
    (hmem : (k, v) ∈ fs)
    (hproc : removeKeysFromObject v ks = .undef) :
    objHasKey (removeKeysFields fs ks) k = false := by
  induction fs with
  | nil => cases hmem
  | cons p rest ih =>
    obtain ⟨key, w⟩ := p
    simp only [List.map_cons, List.nodup_cons] at hnodup
    rcases List.mem_cons.mp hmem with hhead | htail
    · injection hhead with h1 h2
      subst h1
      subst h2
      simp only [removeKeysFields]
      by_cases hc : ks.contains k
      · rw [if_pos hc]
        cases hres : objHasKey (removeKeysFields rest ks) k with
        | false => rfl
        | true => exact absurd (removeKeysFields_keys_subset hres) hnodup.1
      · rw [if_neg hc, hproc]
        simp only [isUndefJ, if_pos]
        cases hres : objHasKey (removeKeysFields rest ks) k with
        | false => rfl
        | true => exact absurd (removeKeysFields_keys_subset hres) hnodup.1
    · have ihr := ih hnodup.2 htail
      simp only [removeKeysFields]
      have hkne : key ≠ k := by
        intro hcontra
        subst hcontra
        exact hnodup.1 (List.mem_map_of_mem Prod.fst htail)
      by_cases hc : ks.contains key
      · rw [if_pos hc]; exact ihr
      · rw [if_neg hc]
        by_cases hu : isUndefJ (removeKeysFromObject w ks)
        · rw [if_pos hu]; exact ihr
        · rw [if_neg hu]
          simp only [objHasKey, List.any_cons, decide_eq_true_eq]
          simp only [objHasKey] at ihr
          simp [hkne, ihr]

/-- C10 witness: `removeKeysFromObject({a: undefined}, [])` returns `{}` —
the key `a` is dropped although `[]` removes nothing. -/
theorem C10_witness :
    removeKeysFromObject (.obj [("a", .undef)]) [] = .obj [] ∧
    objHasKey (removeKeysFields [("a", .undef)] []) "a" = false :=
  ⟨rfl, C10_theorem [("a", .undef)] [] "a" .undef (by simp) (by simp) rfl⟩

/-! Claim C3: the deep-equality characterization for map-like containers. -/

/-- C3: the claim says two map-like containers are deepEqual iff they own the
same number of keys and, for every key owned by `a`, *`b` also owns that key*
with a recursively equal value, so that different key sets of equal size are
never reported equal.  The code never checks that `b` owns the key: it
compares `a[key]` with `b[key]`, and an absent key reads as `undefined` —
so `{x: undefined}` and `{z: 2}` (same key count, disjoint key sets) are
reported deepEqual. -/
theorem C3_counterexample :
    isObjectDeepEqual (.obj [("x", .undef)]) (.obj [("z", .num 2)]) = true ∧
    objHasKey [("z", .num 2)] "x" = false := by
  constructor
  · simp [isObjectDeepEqual_obj_obj, isObjectDeepEqual_scalar, jsGet, objLookup,
      jsTypeof, jsStrictEq, jsIsObject]
  · rfl

/-- C3 (amended): `isObjectDeepEqual` on two map-like containers returns true
iff they own the same number of keys and, for every key owned by `a`, the
value `a[key]` is recursively deepEqual to `b[key]`, where `b[key]` reads as
`undefined` when `b` does not own the key.  (Hence two maps with equal key
count but different key sets are reported equal whenever each key of `a`
missing from `b` holds a value deepEqual to `undefined`.) -/
theorem C3_amended (f1 f2 : List (String × JVal)) :
    isObjectDeepEqual (.obj f1) (.obj f2) = true ↔
      (f1.length = f2.length ∧
       ∀ k ∈ f1.map Prod.fst,
         isObjectDeepEqual (jsGet (.obj f1) k) (jsGet (.obj f2) k) = true) := by
  rw [isObjectDeepEqual_obj_obj]
  by_cases hlen : f1.length = f2.length
  · simp [hlen, List.all_eq_true, List.length_map]
  · simp [hlen, List.length_map]

/-! Claim C5: the per-key semantics of `mergeTwoObjects`. -/

theorem objHasKey_iff_mem (fs : List (String × JVal)) (k : String) :
    objHasKey fs k = true ↔ k ∈ fs.map Prod.fst := by
  simp only [objHasKey, List.any_eq_true, decide_eq_true_eq]
  constructor
  · rintro ⟨p, hp, he⟩
    exact he ▸ List.mem_map_of_mem Prod.fst hp
  · intro h
    obtain ⟨p, hp, he⟩ := List.mem_map.mp h
    exact ⟨p, hp, he⟩

theorem objLookup_append_left {L1 L2 : List (String × JVal)} {k : String}
    (h : objHasKey L1 k = true) :
    objLookup (L1 ++ L2) k = objLookup L1 k := by
  induction L1 with
  | nil => simp [objHasKey] at h
  | cons p rest ih =>
    by_cases hp : p.1 = k
    · obtain ⟨key, w⟩ := p
      simp only at hp
      simp [objLookup, hp]
    · obtain ⟨key, w⟩ := p
      simp only at hp
      simp only [objHasKey, List.any_cons, decide_eq_true_eq, Bool.or_eq_true] at h
      rcases h with h | h
      · exact absurd h hp
      · simp only [List.cons_append, objLookup, if_neg hp]
        exact ih h

theorem mergeTwoObjects_obj_parts {f1 f2 : List (String × JVal)} {r : JVal}
    (h : mergeTwoObjects (.obj f1) (.obj f2) = .ok r) :
    ∃ L1 L2, mergeLoop1 f1 (.obj f2) = .ok L1 ∧
      mergeLoop2 f2 (.obj f1) = .ok L2 ∧ r = .obj (L1 ++ L2) := by
  rw [mergeTwoObjects.eq_def] at h
  simp only [toFields, bind, Except.bind] at h
  cases h1 : mergeLoop1 f1 (.obj f2) with
  | error e => rw [h1] at h; simp at h
  | ok L1 =>
    rw [h1] at h
    cases h2 : mergeLoop2 f2 (.obj f1) with
    | error e => rw [h2] at h; simp at h
    | ok L2 =>
      rw [h2] at h
      simp only [Except.ok.injEq] at h
      exact ⟨L1, L2, rfl, rfl, h.symm⟩

theorem mergeLoop1_nil_eq (o2 : JVal) : mergeLoop1 [] o2 = .ok [] := by
  rw [mergeLoop1.eq_def]

theorem mergeLoop1_cons_eq (key : String) (w : JVal)
    (rest : List (String × JVal)) (o2 : JVal) :
    mergeLoop1 ((key, w) :: rest) o2 = (do
      let hb ← jsHasOwnProperty o2 key
      let contrib ←
        if hb then
          let v2 := jsGet o2 key
          if isArrJ w && isArrJ v2 then
            Except.ok [(key, JVal.arr (arrElems w ++ arrElems v2))]
          else if jsIsObject w then do
            let m ← mergeTwoObjects w v2
            Except.ok [(key, m)]
          else Except.ok [(key, v2)]
        else Except.ok [(key, w)]
      let restFs ← mergeLoop1 rest o2
      Except.ok (contrib ++ restFs)) := by
  rw [mergeLoop1.eq_def]

theorem mergeLoop2_nil_eq (o1 : JVal) : mergeLoop2 [] o1 = .ok [] := by
  rw [mergeLoop2.eq_def]

theorem mergeLoop2_cons_eq (key : String) (w : JVal)
    (rest : List (String × JVal)) (o1 : JVal) :
    mergeLoop2 ((key, w) :: rest) o1 = (do
      let hb ← jsHasOwnProperty o1 key
      let restFs ← mergeLoop2 rest o1
      Except.ok ((if hb then [] else [(key, w)]) ++ restFs)) := by
  rw [mergeLoop2.eq_def]

theorem mergeLoop1_keys {f1 : List (String × JVal)} {o2 : JVal}
    {L1 : List (String × JVal)} (h : mergeLoop1 f1 o2 = .ok L1) :
    L1.map Prod.fst = f1.map Prod.fst := by
  induction f1 generalizing L1 with
  | nil =>
    rw [mergeLoop1_nil_eq] at h
    simp only [Except.ok.injEq] at h
    subst h
    rfl
  | cons p rest ih =>
    obtain ⟨key, w⟩ := p
    rw [mergeLoop1_cons_eq] at h
    cases hhb : jsHasOwnProperty o2 key with
    | error e => rw [hhb] at h; simp [bind, Except.bind] at h
    | ok b =>
      rw [hhb] at h
      simp only [bind, Except.bind] at h
      cases b with
      | false =>
        simp only [Bool.false_eq_true, if_false, ite_false, reduceIte] at h
        cases hrest : mergeLoop1 rest o2 with
        | error e => rw [hrest] at h; simp at h
        | ok Lrest =>
          rw [hrest] at h
          simp only [Except.ok.injEq] at h
          subst h
          simp [ih hrest]
      | true =>
        simp only [if_true, ite_true, reduceIte] at h
        by_cases harr : (isArrJ w && isArrJ (jsGet o2 key)) = true
        · rw [if_pos harr] at h
          cases hrest : mergeLoop1 rest o2 with
          | error e => rw [hrest] at h; simp at h
          | ok Lrest =>
            rw [hrest] at h
            simp only [Except.ok.injEq] at h
            subst h
            simp [ih hrest]
        · rw [if_neg harr] at h
          by_cases hobj : jsIsObject w = true
          · rw [if_pos hobj] at h
            cases hm : mergeTwoObjects w (jsGet o2 key) with
            | error e => rw [hm] at h; simp at h
            | ok mres =>
              rw [hm] at h
              simp only [] at h
              cases hrest : mergeLoop1 rest o2 with
              | error e => rw [hrest] at h; simp at h
              | ok Lrest =>
                rw [hrest] at h
                simp only [Except.ok.injEq] at h
                subst h
                simp [ih hrest]
          · rw [if_neg hobj] at h
            cases hrest : mergeLoop1 rest o2 with
            | error e => rw [hrest] at h; simp at h
            | ok Lrest =>
              rw [hrest] at h
              simp only [Except.ok.injEq] at h
              subst h
              simp [ih hrest]

theorem mergeLoop1_lookup {f1 : List (String × JVal)} {o2 : JVal}
    {L1 : List (String × JVal)} {k : String} {v1 : JVal}
    (h : mergeLoop1 f1 o2 = .ok L1)
    (hnodup : (f1.map Prod.fst).Nodup)
    (hmem : (k, v1) ∈ f1)
    (hown : jsHasOwnProperty o2 k = .ok true) :
    (if (isArrJ v1 && isArrJ (jsGet o2 k)) = true
     then objLookup L1 k = .arr (arrElems v1 ++ arrElems (jsGet o2 k))
     else if jsIsObject v1 = true
     then mergeTwoObjects v1 (jsGet o2 k) = .ok (objLookup L1 k)
     else objLookup L1 k = jsGet o2 k) := by
  induction f1 generalizing L1 with
  | nil => cases hmem
  | cons p rest ih =>
    obtain ⟨key, w⟩ := p
    simp only [List.map_cons, List.nodup_cons] at hnodup
    rw [mergeLoop1_cons_eq] at h
    rcases List.mem_cons.mp hmem with hhead | htail
    · injection hhead with hk hw
      subst hk
      subst hw
      rw [hown] at h
      simp only [bind, Except.bind, if_true, ite_true, reduceIte] at h
      by_cases harr : (isArrJ v1 && isArrJ (jsGet o2 k)) = true
      · rw [if_pos harr] at h
        cases hrest : mergeLoop1 rest o2 with
        | error e => rw [hrest] at h; simp at h
        | ok Lrest =>
          rw [hrest] at h
          simp only [Except.ok.injEq] at h
          subst h
          simp [harr, objLookup]
      · rw [if_neg harr] at h
        by_cases hobj : jsIsObject v1 = true
        · rw [if_pos hobj] at h
          cases hm : mergeTwoObjects v1 (jsGet o2 k) with
          | error e => rw [hm] at h; simp at h
          | ok mres =>
            rw [hm] at h
            simp only [] at h
            cases hrest : mergeLoop1 rest o2 with
            | error e => rw [hrest] at h; simp at h
            | ok Lrest =>
              rw [hrest] at h
              simp only [Except.ok.injEq] at h
              subst h
              simp [harr, hobj, objLookup, hm]
        · rw [if_neg hobj] at h
          cases hrest : mergeLoop1 rest o2 with
          | error e => rw [hrest] at h; simp at h
          | ok Lrest =>
            rw [hrest] at h
            simp only [Except.ok.injEq] at h
            subst h
            simp [harr, hobj, objLookup]
    · have hkne : key ≠ k := by
        intro hcontra
        subst hcontra
        exact hnodup.1 (List.mem_map_of_mem Prod.fst htail)
      cases hhb : jsHasOwnProperty o2 key with
      | error e => rw [hhb] at h; simp [bind, Except.bind] at h
      | ok b =>
        rw [hhb] at h
        simp only [bind, Except.bind] at h
        have hstep : ∀ x (Lrest : List (String × JVal)),
            mergeLoop1 rest o2 = .ok Lrest → L1 = (key, x) :: Lrest →
            (if (isArrJ v1 && isArrJ (jsGet o2 k)) = true
             then objLookup L1 k = .arr (arrElems v1 ++ arrElems (jsGet o2 k))
             else if jsIsObject v1 = true
             then mergeTwoObjects v1 (jsGet o2 k) = .ok (objLookup L1 k)
             else objLookup L1 k = jsGet o2 k) := by
          intro x Lrest hrest hL
          have ihr := ih hrest hnodup.2 htail
          subst hL
          simp only [objLookup, if_neg hkne]
          exact ihr
        cases b with
        | false =>
          simp only [Bool.false_eq_true, if_false, ite_false, reduceIte] at h
          cases hrest : mergeLoop1 rest o2 with
          | error e => rw [hrest] at h; simp at h
          | ok Lrest =>
            rw [hrest] at h
            simp only [Except.ok.injEq] at h
            exact hstep w Lrest hrest h.symm
        | true =>
          simp only [if_true, ite_true, reduceIte] at h
          by_cases harr : (isArrJ w && isArrJ (jsGet o2 key)) = true
          · rw [if_pos harr] at h
            cases hrest : mergeLoop1 rest o2 with
            | error e => rw [hrest] at h; simp at h
            | ok Lrest =>
              rw [hrest] at h
              simp only [Except.ok.injEq] at h
              exact hstep _ Lrest hrest h.symm
          · rw [if_neg harr] at h
            by_cases hobj : jsIsObject w = true
            · rw [if_pos hobj] at h
              cases hm : mergeTwoObjects w (jsGet o2 key) with
              | error e => rw [hm] at h; simp at h
              | ok mres =>
                rw [hm] at h
                simp only [] at h
                cases hrest : mergeLoop1 rest o2 with
                | error e => rw [hrest] at h; simp at h
                | ok Lrest =>
                  rw [hrest] at h
                  simp only [Except.ok.injEq] at h
                  exact hstep mres Lrest hrest h.symm
            · rw [if_neg hobj] at h
              cases hrest : mergeLoop1 rest o2 with
              | error e => rw [hrest] at h; simp at h
              | ok Lrest =>
                rw [hrest] at h
                simp only [Except.ok.injEq] at h
                exact hstep _ Lrest hrest h.symm

/-- C5: the claim says that when a key is present in both arguments and the
values are not both list-like and not both map-like — in particular when
`a`'s value is a container but `b`'s value is a scalar — `b`'s value wins.
Evaluating `mergeTwoObjects({k: {c: 2}}, {k: 5})` refutes this: the guard is
only on `a`'s value being an object, so the code recursively merges `{c: 2}`
with the scalar `5` and produces `{k: {c: 2}}`; `b`'s value `5` does not
appear. -/
theorem C5_counterexample :
    mergeTwoObjects (.obj [("k", .obj [("c", .num 2)])]) (.obj [("k", .num 5)]) =
    .ok (.obj [("k", .obj [("c", .num 2)])]) := by
  simp [mergeTwoObjects.eq_def, mergeLoop1.eq_def, mergeLoop2.eq_def, toFields,
    jsHasOwnProperty, jsHasOwn, objHasKey, jsGet, objLookup, isArrJ, jsIsObject,
    bind, Except.bind, arrElems, List.any]

/-- C5 (amended): for every key present in both arguments of
`mergeTwoObjects(a, b)` (with `a`'s keys distinct, as JavaScript guarantees),
when the merge returns: if both values are list-like the output value is the
concatenation of `a`'s followed by `b`'s elements; otherwise, if `a`'s value
is a container (map-like *or* list-like), the output value is the recursive
`mergeTwoObjects` of `a`'s and `b`'s values — even when `b`'s value is a
scalar; only when `a`'s value is a scalar does `b`'s value win unchanged. -/
theorem C5_amended (f1 f2 m : List (String × JVal)) (k : String) (v1 : JVal)
    (hm : mergeTwoObjects (.obj f1) (.obj f2) = .ok (.obj m))
    (hnodup : (f1.map Prod.fst).Nodup)
    (hmem : (k, v1) ∈ f1)
    (hk2 : objHasKey f2 k = true) :
    (if (isArrJ v1 && isArrJ (objLookup f2 k)) = true
     then objLookup m k = .arr (arrElems v1 ++ arrElems (objLookup f2 k))
     else if jsIsObject v1 = true
     then mergeTwoObjects v1 (objLookup f2 k) = .ok (objLookup m k)
     else objLookup m k = objLookup f2 k) := by
  obtain ⟨L1, L2, hL1, hL2, hr⟩ := mergeTwoObjects_obj_parts hm
  have hrm : m = L1 ++ L2 := by
    injection hr with hr'
  subst hrm
  have hown : jsHasOwnProperty (.obj f2) k = .ok true := by
    simp [jsHasOwnProperty, jsHasOwn, hk2]
  have hkL1 : objHasKey L1 k = true := by
    rw [objHasKey_iff_mem, mergeLoop1_keys hL1]
    exact List.mem_map_of_mem Prod.fst hmem
  have hlook := mergeLoop1_lookup hL1 hnodup hmem hown
  rw [objLookup_append_left hkL1]
  simpa [jsGet] using hlook

/-- C5 witness: `mergeTwoObjects({k: 1}, {k: 2})`, where `a`'s value is a
scalar and `b`'s value `2` wins. -/
theorem C5_witness :
    mergeTwoObjects (.obj [("k", .num 1)]) (.obj [("k", .num 2)]) =
      .ok (.obj [("k", .num 2)]) ∧
    (if (isArrJ (.num 1) && isArrJ (objLookup [("k", .num 2)] "k")) = true
     then objLookup [("k", .num 2)] "k" =
       .arr (arrElems (.num 1) ++ arrElems (objLookup [("k", .num 2)] "k"))
     else if jsIsObject (.num 1) = true
     then mergeTwoObjects (.num 1) (objLookup [("k", .num 2)] "k") =
       .ok (objLookup [("k", .num 2)] "k")
     else objLookup [("k", .num 2)] "k" = objLookup [("k", .num 2)] "k") := by
  have hm : mergeTwoObjects (.obj [("k", .num 1)]) (.obj [("k", .num 2)]) =
      .ok (.obj [("k", .num 2)]) := by
    simp [mergeTwoObjects.eq_def, mergeLoop1.eq_def, mergeLoop2.eq_def, toFields,
      jsHasOwnProperty, jsHasOwn, objHasKey, jsGet, objLookup, isArrJ, jsIsObject,
      bind, Except.bind, arrElems, List.any]
  exact ⟨hm, C5_amended [("k", .num 1)] [("k", .num 2)] [("k", .num 2)] "k"
    (.num 1) hm (by simp) (by simp) rfl⟩

/-! Claim C7: the flatten/unflatten round trip.  `goodFields` captures the
claim's hypotheses (no list-like values, no dot in any key), tightened by
what the counterexample forces: keys are also nonempty and no nested
map-like container is empty. -/

def goodKey (k : String) : Bool := decide (k ≠ "") && !(k.data.contains '.')

mutual
def goodVal : JVal → Bool
  | .obj fs => !fs.isEmpty && goodFields fs
  | .arr _ => false
  | _ => true
def goodFields : List (String × JVal) → Bool
  | [] => true
  | (k, v) :: rest =>
    goodKey k && !(objHasKey rest k) && goodVal v && goodFields rest
end

/-- The flatten writes at the level of path segments. -/
def flattenSegs : List (String × JVal) → List (List String × JVal)
  | [] => []
  | (k, .obj fs2) :: rest =>
    (flattenSegs fs2).map (fun p => (k :: p.1, p.2)) ++ flattenSegs rest
  | (k, v) :: rest => [([k], v)] ++ flattenSegs rest
termination_by fs => jweightFields fs
decreasing_by
  all_goals simp only [jweightFields, jweight] <;> omega

def joinSegs : List String → String
  | [] => ""
  | [s] => s
  | s :: rest => s ++ "." ++ joinSegs rest

def joinWithPre (pre : String) (segs : List String) : String :=
  if pre ≠ "" then pre ++ "." ++ joinSegs segs else joinSegs segs

theorem objAssign_fresh {fs : List (String × JVal)} {k : String} (v : JVal)
    (h : objHasKey fs k = false) : objAssign fs k v = fs ++ [(k, v)] := by
  simp only [objAssign, h, Bool.false_eq_true, if_false, ite_false, reduceIte]

theorem objHasKey_cons_false {key : String} {w : JVal}
    {rest : List (String × JVal)} {k : String}
    (h : objHasKey ((key, w) :: rest) k = false) :
    ¬ key = k ∧ objHasKey rest k = false := by
  simp only [objHasKey, List.any_cons, Bool.or_eq_false_iff,
    decide_eq_false_iff_not] at h
  exact ⟨h.1, h.2⟩

theorem objLookup_append_fresh {pref : List (String × JVal)}
    (l : List (String × JVal)) {k : String}
    (h : objHasKey pref k = false) :
    objLookup (pref ++ l) k = objLookup l k := by
  induction pref with
  | nil => simp
  | cons p rest ih =>
    obtain ⟨key, w⟩ := p
    obtain ⟨h1, h2⟩ := objHasKey_cons_false h
    simp only [List.cons_append, objLookup, if_neg h1]
    exact ih h2

theorem objHasKey_append (l1 l2 : List (String × JVal)) (k : String) :
    objHasKey (l1 ++ l2) k = (objHasKey l1 k || objHasKey l2 k) := by
  simp [objHasKey, List.any_append]

theorem objAssign_map_keep {pref : List (String × JVal)} {k : String}
    (y : JVal) (h : objHasKey pref k = false) :
    pref.map (fun p => if p.1 = k then (k, y) else p) = pref := by
  induction pref with
  | nil => rfl
  | cons p rest ih =>
    obtain ⟨key, w⟩ := p
    obtain ⟨h1, h2⟩ := objHasKey_cons_false h
    simp only [List.map_cons, if_neg h1, ih h2]

theorem objAssign_snoc_entry {pref : List (String × JVal)} {k : String}
    {x : JVal} (y : JVal) (h : objHasKey pref k = false) :
    objAssign (pref ++ [(k, x)]) k y = pref ++ [(k, y)] := by
  have hhas : objHasKey (pref ++ [(k, x)]) k = true := by
    rw [objHasKey_append]
    simp [objHasKey]
  simp only [objAssign, hhas, if_true, ite_true, reduceIte]
  rw [List.map_append, objAssign_map_keep y h]
  simp

theorem goodFields_cons {k : String} {v : JVal} {rest : List (String × JVal)}
    (h : goodFields ((k, v) :: rest) = true) :
    goodKey k = true ∧ objHasKey rest k = false ∧ goodVal v = true ∧
      goodFields rest = true := by
  simp only [goodFields, Bool.and_eq_true, Bool.not_eq_true'] at h
  exact ⟨h.1.1.1, h.1.1.2, h.1.2, h.2⟩

theorem goodVal_obj {fs : List (String × JVal)}
    (h : goodVal (.obj fs) = true) : fs ≠ [] ∧ goodFields fs = true := by
  simp only [goodVal, Bool.and_eq_true, Bool.not_eq_true'] at h
  refine ⟨?_, h.2⟩
  intro hc
  subst hc
  simp [List.isEmpty] at h

theorem joinSegs_cons {k : String} {segs : List String} (h : segs ≠ []) :
    joinSegs (k :: segs) = k ++ "." ++ joinSegs segs := by
  cases segs with
  | nil => exact absurd rfl h
  | cons s rest => rfl

theorem append_dot_ne (a b : String) : (a ++ "." ++ b) ≠ "" := by
  intro h
  have hd := congrArg String.data h
  rw [String.data_append, String.data_append] at hd
  have hdot : (".".data : List Char) = ['.'] := by decide
  rw [hdot] at hd
  simp at hd

theorem joinWithPre_eq (pre : String) (segs : List String) :
    joinWithPre pre segs =
      if pre = "" then joinSegs segs else pre ++ "." ++ joinSegs segs := by
  simp only [joinWithPre, ne_eq, ite_not]

theorem joinWithPre_cons (pre k : String) {segs : List String}
    (hk : goodKey k = true) (hsegs : segs ≠ []) :
    joinWithPre (joinWithPre pre [k]) segs = joinWithPre pre (k :: segs) := by
  have hkne : ¬ k = "" := by
    simp only [goodKey, Bool.and_eq_true, decide_eq_true_eq] at hk
    exact hk.1
  have hj1 : joinSegs [k] = k := rfl
  rw [joinWithPre_eq, joinWithPre_eq, joinWithPre_eq, hj1, joinSegs_cons hsegs]
  by_cases hpre : pre = ""
  · rw [if_pos hpre, if_pos hpre, if_neg hkne]
  · rw [if_neg hpre, if_neg hpre, if_neg (append_dot_ne pre k)]
    simp [String.append_assoc]

theorem splitDots_no_dot {cs : List Char} (h : cs.contains '.' = false) :
    splitDots cs = [cs] := by
  induction cs with
  | nil => rfl
  | cons c rest ih =>
    have hc : ¬ c = '.' ∧ rest.contains '.' = false := by
      simp only [List.contains_cons, Bool.or_eq_false_iff, beq_eq_false_iff_ne,
        ne_eq] at h
      exact ⟨fun hcc => h.1 hcc.symm, h.2⟩
    rw [splitDots.eq_def]
    simp only [if_neg hc.1, ih hc.2]

theorem data_asString (l : List Char) : (List.asString l).data = l := rfl

theorem asString_data (s : String) : List.asString s.data = s := by
  cases s
  rfl

theorem jsSplit_good_single {s : String} (hs : goodKey s = true) :
    jsSplit s = [s] := by
  simp only [goodKey, Bool.and_eq_true, Bool.not_eq_true', decide_eq_true_eq] at hs
  unfold jsSplit
  rw [splitDots_no_dot hs.2]
  simp [asString_data]

theorem jsSplit_joinSegs {segs : List String} (hne : segs ≠ [])
    (hgood : ∀ s ∈ segs, goodKey s = true) :
    jsSplit (joinSegs segs) = segs := by
  induction segs with
  | nil => exact absurd rfl hne
  | cons s rest ih =>
    cases rest with
    | nil =>
      simp only [joinSegs]
      exact jsSplit_good_single (hgood s (List.mem_cons_self _ _))
    | cons t rest2 =>
      rw [joinSegs_cons (by simp)]
      rw [jsSplit_append_dot]
      rw [jsSplit_good_single (hgood s (List.mem_cons_self _ _))]
      rw [ih (by simp) (fun x hx => hgood x (List.mem_cons_of_mem _ hx))]
      rfl

theorem flattenSegs_segs_ne_nil (fs : List (String × JVal)) :
    ∀ p ∈ flattenSegs fs, p.1 ≠ [] := by
  induction fs using flattenSegs.induct with
  | case1 => intro p hp; rw [flattenSegs.eq_def] at hp; cases hp
  | case2 k fs2 rest ih2 ihrest =>
    intro p hp
    rw [flattenSegs.eq_def] at hp
    simp only [List.mem_append, List.mem_map] at hp
    rcases hp with ⟨q, _, hq⟩ | hp
    · rw [← hq]; simp
    · exact ihrest p hp
  | case3 k v rest hne ihrest =>
    intro p hp
    rw [flattenSegs.eq_def] at hp
    rcases v with _ | _ | b | n | s | es | fs2
    all_goals
      first
      | (exact (hne _ rfl).elim)
      | (simp only [List.cons_append, List.nil_append, List.mem_cons] at hp
         rcases hp with hp | hp
         · rw [hp]; simp
         · exact ihrest p hp)

theorem flattenSegs_head (fs : List (String × JVal)) :
    ∀ p ∈ flattenSegs fs, ∃ k segs2, p.1 = k :: segs2 ∧ k ∈ fs.map Prod.fst := by
  induction fs using flattenSegs.induct with
  | case1 => intro p hp; rw [flattenSegs.eq_def] at hp; cases hp
  | case2 k fs2 rest ih2 ihrest =>
    intro p hp
    rw [flattenSegs.eq_def] at hp
    simp only [List.mem_append, List.mem_map] at hp
    rcases hp with ⟨q, _, hq⟩ | hp
    · exact ⟨k, q.1, by rw [← hq], by simp⟩
    · obtain ⟨k2, segs2, he, hm⟩ := ihrest p hp
      exact ⟨k2, segs2, he, by simp [hm]⟩
  | case3 k v rest hne ihrest =>
    intro p hp
    rw [flattenSegs.eq_def] at hp
    rcases v with _ | _ | b | n | s | es | fs2
    all_goals
      first
      | (exact (hne _ rfl).elim)
      | (simp only [List.cons_append, List.nil_append, List.mem_cons] at hp
         rcases hp with hp | hp
         · exact ⟨k, [], by rw [hp], by simp⟩
         · obtain ⟨k2, segs2, he, hm⟩ := ihrest p hp
           exact ⟨k2, segs2, he, by simp [hm]⟩)

theorem flattenSegs_good {fs : List (String × JVal)} (h : goodFields fs = true) :
    ∀ p ∈ flattenSegs fs, ∀ s ∈ p.1, goodKey s = true := by
  induction fs using flattenSegs.induct with
  | case1 => intro p hp; rw [flattenSegs.eq_def] at hp; cases hp
  | case2 k fs2 rest ih2 ihrest =>
    obtain ⟨hgk, hfresh, hgv, hgrest⟩ := goodFields_cons h
    obtain ⟨hne2, hgf2⟩ := goodVal_obj hgv
    intro p hp
    rw [flattenSegs.eq_def] at hp
    simp only [List.mem_append, List.mem_map] at hp
    rcases hp with ⟨q, hqmem, hq⟩ | hp
    · intro s hs
      rw [← hq] at hs
      simp only [List.mem_cons] at hs
      rcases hs with hs | hs
      · rw [hs]; exact hgk
      · exact ih2 hgf2 q hqmem s hs
    · exact ihrest hgrest p hp
  | case3 k v rest hne ihrest =>
    obtain ⟨hgk, hfresh, hgv, hgrest⟩ := goodFields_cons h
    intro p hp
    rw [flattenSegs.eq_def] at hp
    rcases v with _ | _ | b | n | s0 | es | fs2
    all_goals
      first
      | (exact (hne _ rfl).elim)
      | (simp only [List.cons_append, List.nil_append, List.mem_cons] at hp
         rcases hp with hp | hp
         · intro s hs
           rw [hp] at hs
           simp only [List.mem_singleton] at hs
           rw [hs]
           exact hgk
         · exact ihrest hgrest p hp)

theorem flattenSegs_ne_nil {fs : List (String × JVal)}
    (h : goodFields fs = true) (hne : fs ≠ []) : flattenSegs fs ≠ [] := by
  induction fs using flattenSegs.induct with
  | case1 => exact absurd rfl hne
  | case2 k fs2 rest ih2 ihrest =>
    obtain ⟨hgk, hfresh, hgv, hgrest⟩ := goodFields_cons h
    obtain ⟨hne2, hgf2⟩ := goodVal_obj hgv
    have hfl2 := ih2 hgf2 hne2
    rw [flattenSegs.eq_def]
    simp only [ne_eq, List.append_eq_nil, List.map_eq_nil, not_and]
    intro hc
    exact absurd hc hfl2
  | case3 k v rest hnotobj ihrest =>
    rw [flattenSegs.eq_def]
    cases v with
    | obj fs2 => exact (hnotobj _ rfl).elim
    | arr es => simp
    | undef => simp
    | null => simp
    | bool b => simp
    | num n => simp
    | str s => simp

theorem newKey_eq_joinWithPre (pre k : String) :
    (if pre ≠ "" then pre ++ "." ++ k else k) = joinWithPre pre [k] := by
  rw [joinWithPre_eq]
  by_cases hpre : pre = ""
  · simp [hpre, joinSegs]
  · simp [hpre, joinSegs]

/-- The string-level flatten writes are the segment-level writes with the
keys dot-joined under the running path. -/
theorem flattenWrites_eq_segs {fs : List (String × JVal)} (pre : String)
    (h : goodFields fs = true) :
    flattenWrites fs pre =
      (flattenSegs fs).map (fun p => (joinWithPre pre p.1, p.2)) := by
  induction fs using flattenSegs.induct generalizing pre with
  | case1 => rw [flattenWrites.eq_def, flattenSegs.eq_def]; rfl
  | case2 k fs2 rest ih2 ihrest =>
    obtain ⟨hgk, hfresh, hgv, hgrest⟩ := goodFields_cons h
    obtain ⟨hne2, hgf2⟩ := goodVal_obj hgv
    rw [flattenWrites.eq_def, flattenSegs.eq_def]
    simp only [jsIsObject, if_true, ite_true, reduceIte, toFields]
    rw [ih2 _ hgf2, ihrest _ hgrest]
    rw [List.map_append, List.map_map]
    congr 1
    rw [newKey_eq_joinWithPre]
    apply List.map_congr_left
    intro p hp
    simp only [Function.comp]
    rw [joinWithPre_cons pre k hgk (flattenSegs_segs_ne_nil fs2 p hp)]
  | case3 k v rest hnotobj ihrest =>
    obtain ⟨hgk, hfresh, hgv, hgrest⟩ := goodFields_cons h
    rw [flattenWrites.eq_def, flattenSegs.eq_def]
    cases v with
    | obj fs2 => exact (hnotobj _ rfl).elim
    | arr es => simp [goodVal] at hgv
    | undef =>
      simp only [jsIsObject, Bool.false_eq_true, if_false, ite_false, reduceIte]
      rw [ihrest _ hgrest, newKey_eq_joinWithPre]
      simp [joinWithPre_eq, joinSegs]
    | null =>
      simp only [jsIsObject, Bool.false_eq_true, if_false, ite_false, reduceIte]
      rw [ihrest _ hgrest, newKey_eq_joinWithPre]
      simp [joinWithPre_eq, joinSegs]
    | bool b =>
      simp only [jsIsObject, Bool.false_eq_true, if_false, ite_false, reduceIte]
      rw [ihrest _ hgrest, newKey_eq_joinWithPre]
      simp [joinWithPre_eq, joinSegs]
    | num n =>
      simp only [jsIsObject, Bool.false_eq_true, if_false, ite_false, reduceIte]
      rw [ihrest _ hgrest, newKey_eq_joinWithPre]
      simp [joinWithPre_eq, joinSegs]
    | str s =>
      simp only [jsIsObject, Bool.false_eq_true, if_false, ite_false, reduceIte]
      rw [ihrest _ hgrest, newKey_eq_joinWithPre]
      simp [joinWithPre_eq, joinSegs]

theorem flattenSegs_nodup {fs : List (String × JVal)}
    (h : goodFields fs = true) : ((flattenSegs fs).map Prod.fst).Nodup := by
  induction fs using flattenSegs.induct with
  | case1 => rw [flattenSegs.eq_def]; simp
  | case2 k fs2 rest ih2 ihrest =>
    obtain ⟨hgk, hfresh, hgv, hgrest⟩ := goodFields_cons h
    obtain ⟨hne2, hgf2⟩ := goodVal_obj hgv
    rw [flattenSegs.eq_def]
    rw [List.map_append, List.nodup_append]
    refine ⟨?_, ihrest hgrest, ?_⟩
    · rw [List.map_map]
      have : (Prod.fst ∘ fun p : List String × JVal => (k :: p.1, p.2)) =
          (fun p : List String × JVal => k :: p.1) := rfl
      rw [this]
      have hmapmap : (fun p : List String × JVal => k :: p.1) =
          (List.cons k) ∘ Prod.fst := rfl
      rw [hmapmap, ← List.map_map]
      apply (ih2 hgf2).map_on
      intro x _ y _ hxy
      injection hxy
    · intro a ha
      rw [List.map_map] at ha
      obtain ⟨p, _, hp⟩ := List.mem_map.mp ha
      intro hb
      obtain ⟨q, hqmem, hq⟩ := List.mem_map.mp hb
      obtain ⟨k2, segs2, hq1, hq2⟩ := flattenSegs_head rest q hqmem
      have : a = k :: p.1 := by rw [← hp]; rfl
      rw [← hq, hq1] at this
      injection this with h1 _
      rw [h1] at hq2
      rw [← objHasKey_iff_mem] at hq2
      rw [hq2] at hfresh
      cases hfresh

  | case3 k v rest hnotobj ihrest =>
    obtain ⟨hgk, hfresh, hgv, hgrest⟩ := goodFields_cons h
    rw [flattenSegs.eq_def]
    cases v
    case obj fs2 => exact (hnotobj _ rfl).elim
    case arr es => simp [goodVal] at hgv
    all_goals
      (simp only [List.cons_append, List.nil_append, List.map_cons, List.nodup_cons]
       refine ⟨?_, ihrest hgrest⟩
       intro hb
       obtain ⟨q, hqmem, hq⟩ := List.mem_map.mp hb
       obtain ⟨k2, segs2, hq1, hq2⟩ := flattenSegs_head rest q hqmem
       rw [hq1] at hq
       injection hq with h1 _
       rw [h1] at hq2
       rw [← objHasKey_iff_mem] at hq2
       rw [hq2] at hfresh
       cases hfresh)

theorem objLookup_not_has {fs : List (String × JVal)} {k : String}
    (h : objHasKey fs k = false) : objLookup fs k = .undef := by
  induction fs with
  | nil => rfl
  | cons p rest ih =>
    obtain ⟨key, w⟩ := p
    obtain ⟨h1, h2⟩ := objHasKey_cons_false h
    simp only [objLookup, if_neg h1]
    exact ih h2

theorem flattenWrites_nil (pre : String) : flattenWrites [] pre = [] := by
  rw [flattenWrites.eq_def]

/-- One flat write at a single-segment path is a plain property assignment. -/
theorem setPath_single (fs : List (String × JVal)) (k : String) (v : JVal) :
    setPath fs [k] v = objAssign fs k v := rfl

/-- A flat write whose first segment hits an existing plain object recurses
into that object. -/
theorem setPath_cons_obj {res inner : List (String × JVal)} {k : String}
    (hcur : objLookup res k = .obj inner) (s : String) (rest : List String)
    (v : JVal) :
    setPath res (k :: s :: rest) v =
      objAssign res k (.obj (setPath inner (s :: rest) v)) := by
  rw [setPath.eq_def]
  simp only [hcur, jsTruthy, if_true, ite_true, reduceIte]

/-- A flat write whose first segment is absent creates a fresh plain object
and recurses into it. -/
theorem setPath_cons_fresh {res : List (String × JVal)} {k : String}
    (hcur : objLookup res k = .undef) (s : String) (rest : List String)
    (v : JVal) :
    setPath res (k :: s :: rest) v =
      objAssign res k (.obj (setPath [] (s :: rest) v)) := by
  rw [setPath.eq_def]
  simp only [hcur, jsTruthy, Bool.false_eq_true, if_false, ite_false, reduceIte]

/-- The unflatten reducer at the level of path segments. -/
def segsFold (sw : List (List String × JVal)) (res : List (String × JVal)) :
    List (String × JVal) :=
  sw.foldl (fun res p => setPath res p.1 p.2) res

theorem assignFold_eq (ws : List (String × JVal)) :
    ∀ acc, (ws.map Prod.fst).Nodup →
    (∀ p ∈ ws, objHasKey acc p.1 = false) →
    ws.foldl (fun acc p => objAssign acc p.1 p.2) acc = acc ++ ws := by
  induction ws with
  | nil => intro acc _ _; simp
  | cons w rest ih =>
    intro acc hnd hfresh
    obtain ⟨k, v⟩ := w
    simp only [List.map_cons, List.nodup_cons] at hnd
    simp only [List.foldl_cons]
    rw [objAssign_fresh v (hfresh (k, v) (List.mem_cons_self _ _))]
    have hfr : ∀ p ∈ rest, objHasKey (acc ++ [(k, v)]) p.1 = false := by
      intro p hp
      rw [objHasKey_append, hfresh p (List.mem_cons_of_mem _ hp)]
      have hpk : ¬ (k = p.1) := by
        intro hc
        exact hnd.1 (hc ▸ List.mem_map_of_mem Prod.fst hp)
      simp [objHasKey, hpk]
    rw [ih (acc ++ [(k, v)]) hnd.2 hfr]
    simp

theorem joinSegs_inj_on {a b : List String} (ha1 : a ≠ [])
    (ha2 : ∀ s ∈ a, goodKey s = true) (hb1 : b ≠ [])
    (hb2 : ∀ s ∈ b, goodKey s = true) (h : joinSegs a = joinSegs b) : a = b := by
  have ha := jsSplit_joinSegs ha1 ha2
  rw [h, jsSplit_joinSegs hb1 hb2] at ha
  exact ha.symm

theorem flattenWrites_keys_nodup {fs : List (String × JVal)}
    (h : goodFields fs = true) :
    ((flattenWrites fs "").map Prod.fst).Nodup := by
  rw [flattenWrites_eq_segs "" h, List.map_map]
  have hfun : (Prod.fst ∘ fun p : List String × JVal =>
      (joinWithPre "" p.1, p.2)) = joinSegs ∘ Prod.fst := by
    funext p
    simp [joinWithPre_eq]
  rw [hfun, ← List.map_map]
  apply (flattenSegs_nodup h).map_on
  intro x hx y hy hxy
  obtain ⟨p, hp, hpx⟩ := List.mem_map.mp hx
  obtain ⟨q, hq, hqy⟩ := List.mem_map.mp hy
  subst hpx hqy
  exact joinSegs_inj_on (flattenSegs_segs_ne_nil fs p hp) (flattenSegs_good h p hp)
    (flattenSegs_segs_ne_nil fs q hq) (flattenSegs_good h q hq) hxy

/-- Folding a group of flat writes that all start with the same fresh first
segment `k` over a result whose last entry is the `k` object updates exactly
that inner object. -/
theorem segsFold_group {pre0 : List (String × JVal)} {k : String}
    (hfresh : objHasKey pre0 k = false) :
    ∀ sw : List (List String × JVal), (∀ p ∈ sw, p.1 ≠ []) →
    ∀ inner : List (String × JVal),
    segsFold (sw.map (fun p => (k :: p.1, p.2))) (pre0 ++ [(k, .obj inner)]) =
      pre0 ++ [(k, .obj (segsFold sw inner))] := by
  intro sw
  induction sw with
  | nil => intro _ inner; rfl
  | cons p sw2 ih =>
    intro hne inner
    obtain ⟨segs, v⟩ := p
    have hsne : segs ≠ [] := hne (segs, v) (List.mem_cons_self _ _)
    cases segs with
    | nil => exact absurd rfl hsne
    | cons s rest =>
      simp only [List.map_cons, segsFold, List.foldl_cons]
      have hcur : objLookup (pre0 ++ [(k, JVal.obj inner)]) k = .obj inner := by
        rw [objLookup_append_fresh _ hfresh]
        simp [objLookup]
      rw [setPath_cons_obj hcur s rest v]
      rw [objAssign_snoc_entry _ hfresh]
      have hrec := ih (fun q hq => hne q (List.mem_cons_of_mem _ hq))
        (setPath inner (s :: rest) v)
      simp only [segsFold] at hrec
      exact hrec

/-- Folding the flat writes of a nested non-empty object under a fresh first
segment `k` appends one `k` entry holding the folded inner writes. -/
theorem segsFold_group_start {acc : List (String × JVal)} {k : String}
    (hfresh : objHasKey acc k = false) {fs2 : List (String × JVal)}
    (hgf2 : goodFields fs2 = true) (hne2 : fs2 ≠ []) :
    segsFold ((flattenSegs fs2).map (fun p => (k :: p.1, p.2))) acc =
      acc ++ [(k, .obj (segsFold (flattenSegs fs2) []))] := by
  obtain ⟨p, sw2, hsw⟩ : ∃ p sw2, flattenSegs fs2 = p :: sw2 := by
    cases hfl : flattenSegs fs2 with
    | nil => exact absurd hfl (flattenSegs_ne_nil hgf2 hne2)
    | cons p sw2 => exact ⟨p, sw2, rfl⟩
  rw [hsw]
  obtain ⟨segs, v⟩ := p
  have hsne : segs ≠ [] :=
    flattenSegs_segs_ne_nil fs2 (segs, v) (hsw ▸ List.mem_cons_self _ _)
  cases segs with
  | nil => exact absurd rfl hsne
  | cons s rest =>
    simp only [List.map_cons, segsFold, List.foldl_cons]
    rw [setPath_cons_fresh (objLookup_not_has hfresh) s rest v]
    rw [objAssign_fresh _ hfresh]
    have hne2' : ∀ q ∈ sw2, q.1 ≠ [] := by
      intro q hq
      exact flattenSegs_segs_ne_nil fs2 q (hsw ▸ List.mem_cons_of_mem _ hq)
    have hrec := segsFold_group hfresh sw2 hne2' (setPath [] (s :: rest) v)
    simp only [segsFold] at hrec
    exact hrec

/-- Extending the accumulator with one fresh key keeps the remaining keys
fresh. -/
theorem freshness_extend {acc rest : List (String × JVal)} {k : String}
    {w : JVal} (hacc : ∀ p ∈ rest, objHasKey acc p.1 = false)
    (hfreshk : objHasKey rest k = false) :
    ∀ p ∈ rest, objHasKey (acc ++ [(k, w)]) p.1 = false := by
  intro p hp
  rw [objHasKey_append, hacc p hp]
  have hpk : ¬ (k = p.1) := by
    intro hc
    have : objHasKey rest k = true :=
      (objHasKey_iff_mem rest k).mpr (hc ▸ List.mem_map_of_mem Prod.fst hp)
    rw [this] at hfreshk
    cases hfreshk
  simp [objHasKey, hpk]

theorem flattenSegs_cons_scalar {k : String} {v : JVal}
    {rest : List (String × JVal)} (hobj : ∀ fs2, v = JVal.obj fs2 → False)
    (harr : ∀ es, v = JVal.arr es → False) :
    flattenSegs ((k, v) :: rest) = ([k], v) :: flattenSegs rest := by
  rw [flattenSegs.eq_def]
  cases v <;>
    first
    | rfl
    | (exact (hobj _ rfl).elim)
    | (exact (harr _ rfl).elim)

/-- Main reconstruction: folding the segment-level flat writes of a good
field list over an accumulator with disjoint keys appends exactly the
original fields. -/
theorem segsFold_flatten {fs : List (String × JVal)} (h : goodFields fs = true) :
    ∀ acc, (∀ p ∈ fs, objHasKey acc p.1 = false) →
    segsFold (flattenSegs fs) acc = acc ++ fs := by
  induction fs using flattenSegs.induct with
  | case1 =>
    intro acc _
    rw [flattenSegs.eq_def]
    simp [segsFold]
  | case2 k fs2 rest ih2 ihrest =>
    intro acc hacc
    obtain ⟨hgk, hfreshk, hgv, hgrest⟩ := goodFields_cons h
    obtain ⟨hne2, hgf2⟩ := goodVal_obj hgv
    rw [flattenSegs.eq_def]
    simp only [segsFold, List.foldl_append]
    have hkacc : objHasKey acc k = false := hacc (k, .obj fs2) (List.mem_cons_self _ _)
    have h1 := segsFold_group_start hkacc hgf2 hne2
    simp only [segsFold] at h1
    rw [h1]
    have h2 := ih2 hgf2 [] (fun p _ => rfl)
    simp only [segsFold] at h2
    rw [h2]
    simp only [List.nil_append]
    have h3 := ihrest hgrest (acc ++ [(k, JVal.obj fs2)])
      (freshness_extend (fun p hp => hacc p (List.mem_cons_of_mem _ hp)) hfreshk)
    simp only [segsFold] at h3
    rw [h3]
    simp
  | case3 k v rest hnotobj ihrest =>
    intro acc hacc
    obtain ⟨hgk, hfreshk, hgv, hgrest⟩ := goodFields_cons h
    have harr : ∀ es, v = JVal.arr es → False := by
      intro es hc
      subst hc
      simp [goodVal] at hgv
    rw [flattenSegs_cons_scalar hnotobj harr]
    simp only [segsFold, List.foldl_cons]
    rw [setPath_single, objAssign_fresh _ (hacc _ (List.mem_cons_self _ _))]
    have h3 := ihrest hgrest (acc ++ [(k, v)])
      (freshness_extend (fun p hp => hacc p (List.mem_cons_of_mem _ hp)) hfreshk)
    simp only [segsFold] at h3
    rw [h3]
    simp

/-- The unflatten reducer applied to dot-joined keys recovers the
segment-level fold, because `jsSplit` undoes `joinSegs` on good segments. -/
theorem unflattenFold_eq_segsFold {sw : List (List String × JVal)}
    (hne : ∀ p ∈ sw, p.1 ≠ [])
    (hgood : ∀ p ∈ sw, ∀ s ∈ p.1, goodKey s = true) :
    ∀ res, (sw.map (fun p => (joinSegs p.1, p.2))).foldl
        (fun res p => setPath res (jsSplit p.1) p.2) res =
      segsFold sw res := by
  induction sw with
  | nil => intro res; rfl
  | cons p sw2 ih =>
    intro res
    simp only [List.map_cons, List.foldl_cons, segsFold]
    rw [jsSplit_joinSegs (hne p (List.mem_cons_self _ _))
      (hgood p (List.mem_cons_self _ _))]
    have hrec := ih (fun q hq => hne q (List.mem_cons_of_mem _ hq))
      (fun q hq => hgood q (List.mem_cons_of_mem _ hq)) (setPath res p.1 p.2)
    simp only [segsFold] at hrec
    exact hrec

/-- Flatten of a good plain object: the flat writes install without
collisions, so the flat object's field list is exactly the write list. -/
theorem transformToFlattenObject_obj {fs : List (String × JVal)}
    (h : goodFields fs = true) :
    transformToFlattenObject (.obj fs) =
      .obj ((flattenSegs fs).map (fun p => (joinSegs p.1, p.2))) := by
  rw [transformToFlattenObject]
  simp only [jsIsObject, not_true_eq_false, if_false, ite_false, reduceIte,
    toFields]
  rw [assignFold_eq (flattenWrites fs "") [] (flattenWrites_keys_nodup h)
    (fun p _ => rfl)]
  rw [flattenWrites_eq_segs "" h]
  have hfun : (fun p : List String × JVal => (joinWithPre "" p.1, p.2)) =
      (fun p : List String × JVal => (joinSegs p.1, p.2)) := by
    funext p
    simp [joinWithPre_eq]
  rw [hfun]
  simp

/-- Unflatten after flatten restores a good plain object exactly. -/
theorem roundTrip_obj {fs : List (String × JVal)} (h : goodFields fs = true) :
    transformToUnflattenObject (transformToFlattenObject (.obj fs)) =
      .obj fs := by
  rw [transformToFlattenObject_obj h]
  rw [transformToUnflattenObject]
  simp only [jsIsObject, not_true_eq_false, if_false, ite_false, reduceIte,
    toFields]
  rw [unflattenFold_eq_segsFold (fun p hp => flattenSegs_segs_ne_nil fs p hp)
    (fun p hp => flattenSegs_good h p hp) []]
  rw [segsFold_flatten h [] (fun p _ => rfl)]
  simp

theorem mem_zip_self_eq {α : Type} {l : List α} {p : α × α}
    (h : p ∈ l.zip l) : p.1 = p.2 := by
  induction l with
  | nil => cases h
  | cons a rest ih =>
    simp only [List.zip_cons_cons, List.mem_cons] at h
    rcases h with h | h
    · rw [h]
    · exact ih h

theorem deepEqual_refl_aux :
    ∀ n, ∀ v : JVal, jweight v ≤ n → isObjectDeepEqual v v = true := by
  intro n
  induction n with
  | zero =>
    intro v hv
    have := jweight_pos v
    omega
  | succ n ih =>
    intro v hv
    cases v with
    | arr es =>
      rw [isObjectDeepEqual_arr_arr]
      simp only [ne_eq, not_true_eq_false, if_false, ite_false, reduceIte]
      rw [List.all_eq_true]
      intro p hp
      have he : p.1 = p.2 := mem_zip_self_eq hp
      have hmem : p.1 ∈ es := (List.of_mem_zip hp).1
      have hw := jweight_lt_of_mem_elems hmem
      rw [← he]
      simp only [jweight] at hv
      exact ih p.1 (by omega)
    | obj fs =>
      rw [isObjectDeepEqual_obj_obj]
      simp only [ne_eq, not_true_eq_false, if_false, ite_false, reduceIte]
      rw [List.all_eq_true]
      intro k hk
      have hw : jweight (jsGet (.obj fs) k) < jweight (.obj fs) :=
        jsGet_obj_weight_lt_of_mem hk
      exact ih _ (by omega)
    | undef =>
      rw [isObjectDeepEqual_scalar .undef .undef (Or.inl rfl)]
      simp [jsStrictEq]
    | null =>
      rw [isObjectDeepEqual_scalar .null .null (Or.inl rfl)]
      simp [jsStrictEq]
    | bool b =>
      rw [isObjectDeepEqual_scalar (.bool b) (.bool b) (Or.inl rfl)]
      simp [jsStrictEq]
    | num m =>
      rw [isObjectDeepEqual_scalar (.num m) (.num m) (Or.inl rfl)]
      simp [jsStrictEq]
    | str s =>
      rw [isObjectDeepEqual_scalar (.str s) (.str s) (Or.inl rfl)]
      simp [jsStrictEq]

/-- `isObjectDeepEqual` is reflexive on materialized trees. -/
theorem isObjectDeepEqual_refl (v : JVal) : isObjectDeepEqual v v = true :=
  deepEqual_refl_aux (jweight v) v le_rfl

/-- C7: counterexample.  The tree `{a: {}}` contains no list-like value and
no dot in any key, yet the flatten pass emits no write at all for the empty
nested object, so `transformToUnflattenObject (transformToFlattenObject t)`
is `{}` and is not deep-equal to `t`. -/
theorem C7_counterexample :
    isObjectDeepEqual
      (transformToUnflattenObject (transformToFlattenObject
        (.obj [("a", .obj [])])))
      (.obj [("a", .obj [])]) = false := by
  have h1 : transformToFlattenObject (.obj [("a", .obj [])]) = .obj [] := by
    rw [transformToFlattenObject]
    simp only [jsIsObject, not_true_eq_false, if_false, ite_false, reduceIte,
      toFields]
    rw [flattenWrites.eq_def]
    simp only [jsIsObject, if_true, ite_true, reduceIte, toFields,
      flattenWrites_nil]
    rfl
  have h2 : transformToUnflattenObject (.obj []) = .obj [] := by
    rw [transformToUnflattenObject]
    rfl
  rw [h1, h2]
  rw [isObjectDeepEqual_obj_obj]
  simp

/-- C7 amended: for a plain-object tree whose field lists are all `good`
(keys non-empty, dot-free and pairwise distinct; values scalar or non-empty
good plain objects; no list-like values), unflatten after flatten restores
the tree exactly, hence deep-equal. -/
theorem C7_amended (fs : List (String × JVal)) (h : goodFields fs = true) :
    isObjectDeepEqual
      (transformToUnflattenObject (transformToFlattenObject (.obj fs)))
      (.obj fs) = true := by
  rw [roundTrip_obj h]
  exact isObjectDeepEqual_refl (.obj fs)

/-! C8: diff-then-merge recovers the after state for additive changes on
map-only trees.  `wfTree`/`wfFields` capture "map-only JavaScript object":
no list-like values anywhere and pairwise distinct keys at every level (the
JavaScript own-key invariant).  `additiveVal before after` captures "after
is before plus only new or changed keys, with no removals at any level":
every key of `before` is still owned by `after`, and a map-like value can
only evolve into a map-like value that is additive over it (losing the
container, or a key inside it, would remove nested keys). -/

mutual
def wfTree : JVal → Bool
  | .obj fs => wfFields fs
  | .arr _ => false
  | _ => true
def wfFields : List (String × JVal) → Bool
  | [] => true
  | (k, v) :: rest => !(objHasKey rest k) && wfTree v && wfFields rest
end

def additiveVal : JVal → JVal → Bool
  | .obj f1, .obj f2 =>
    f1.attach.all (fun p =>
      objHasKey f2 p.1.1 && additiveVal p.1.2 (objLookup f2 p.1.1))
  | .obj _, _ => false
  | _, _ => true
termination_by v1 v2 => jweight v1 + jweight v2
decreasing_by
  have w1 : jweight p.1.2 < jweightFields f1 := jweight_lt_of_mem_fields p.2
  have w2 := objLookup_weight_le f2 p.1.1
  simp only [jweight]
  omega

theorem additiveVal_obj_obj (f1 f2 : List (String × JVal)) :
    additiveVal (.obj f1) (.obj f2) =
      f1.all (fun p => objHasKey f2 p.1 && additiveVal p.2 (objLookup f2 p.1)) := by
  rw [additiveVal.eq_def]
  exact all_attach_eq f1
    (fun q => objHasKey f2 q.1 && additiveVal q.2 (objLookup f2 q.1))

theorem additiveVal_not_obj {v : JVal} (w : JVal) (h : jsIsObject v = false) :
    additiveVal v w = true := by
  rw [additiveVal.eq_def]
  cases v <;> cases w <;> first | rfl | (simp [jsIsObject] at h)

theorem additiveVal_obj_right {g1 : List (String × JVal)} {w : JVal}
    (h : additiveVal (.obj g1) w = true) :
    ∃ g2 : List (String × JVal), w = .obj g2 := by
  rw [additiveVal.eq_def] at h
  cases w <;> first | (exact ⟨_, rfl⟩) | (cases h)

theorem wfFields_cons {k : String} {v : JVal} {rest : List (String × JVal)}
    (h : wfFields ((k, v) :: rest) = true) :
    objHasKey rest k = false ∧ wfTree v = true ∧ wfFields rest = true := by
  simp only [wfFields, Bool.and_eq_true, Bool.not_eq_true'] at h
  exact ⟨h.1.1, h.1.2, h.2⟩

theorem wfFields_nodup {fs : List (String × JVal)} (h : wfFields fs = true) :
    (fs.map Prod.fst).Nodup := by
  induction fs with
  | nil => simp
  | cons p rest ih =>
    obtain ⟨k, v⟩ := p
    obtain ⟨h1, _, h3⟩ := wfFields_cons h
    simp only [List.map_cons, List.nodup_cons]
    refine ⟨?_, ih h3⟩
    intro hc
    rw [← objHasKey_iff_mem] at hc
    rw [hc] at h1
    cases h1

theorem objLookup_eq_of_mem {fs : List (String × JVal)} {k : String} {v : JVal}
    (hnd : (fs.map Prod.fst).Nodup) (h : (k, v) ∈ fs) : objLookup fs k = v := by
  induction fs with
  | nil => cases h
  | cons p rest ih =>
    obtain ⟨key, w⟩ := p
    simp only [List.map_cons, List.nodup_cons] at hnd
    rcases List.mem_cons.mp h with hh | ht
    · injection hh with h1 h2
      subst h1
      subst h2
      simp [objLookup]
    · have hne : ¬ (key = k) := by
        intro hc
        subst hc
        exact hnd.1 (List.mem_map_of_mem Prod.fst ht)
      simp only [objLookup, if_neg hne]
      exact ih hnd.2 ht

theorem mem_of_objHasKey {fs : List (String × JVal)} {k : String}
    (h : objHasKey fs k = true) : (k, objLookup fs k) ∈ fs := by
  induction fs with
  | nil => simp [objHasKey] at h
  | cons p rest ih =>
    obtain ⟨key, w⟩ := p
    by_cases hk : key = k
    · subst hk
      simp [objLookup]
    · simp only [objHasKey, List.any_cons, Bool.or_eq_true,
        decide_eq_true_eq] at h
      rcases h with h | h
      · exact absurd h hk
      · simp only [objLookup, if_neg hk]
        exact List.mem_cons_of_mem _ (ih h)

theorem wfFields_lookup {fs : List (String × JVal)} {k : String}
    (h : wfFields fs = true) (hk : objHasKey fs k = true) :
    wfTree (objLookup fs k) = true := by
  induction fs with
  | nil => simp [objHasKey] at hk
  | cons p rest ih =>
    obtain ⟨key, w⟩ := p
    obtain ⟨_, h2, h3⟩ := wfFields_cons h
    by_cases hke : key = k
    · subst hke
      simpa [objLookup] using h2
    · simp only [objHasKey, List.any_cons, Bool.or_eq_true,
        decide_eq_true_eq] at hk
      rcases hk with hk | hk
      · exact absurd hk hke
      · simp only [objLookup, if_neg hke]
        exact ih h3 hk

theorem additive_keys {f1 f2 : List (String × JVal)}
    (h : additiveVal (.obj f1) (.obj f2) = true) :
    ∀ k ∈ f1.map Prod.fst, objHasKey f2 k = true := by
  rw [additiveVal_obj_obj] at h
  rw [List.all_eq_true] at h
  intro k hk
  obtain ⟨p, hp, hpk⟩ := List.mem_map.mp hk
  have := h p hp
  simp only [Bool.and_eq_true] at this
  exact hpk ▸ this.1

theorem additive_lookup {f1 f2 : List (String × JVal)}
    (hnd : (f1.map Prod.fst).Nodup)
    (h : additiveVal (.obj f1) (.obj f2) = true) :
    ∀ k ∈ f1.map Prod.fst,
      additiveVal (objLookup f1 k) (objLookup f2 k) = true := by
  rw [additiveVal_obj_obj] at h
  rw [List.all_eq_true] at h
  intro k hk
  obtain ⟨p, hp, hpk⟩ := List.mem_map.mp hk
  have hv : objLookup f1 k = p.2 := by
    subst hpk
    exact objLookup_eq_of_mem hnd (by simpa using hp)
  have := h p hp
  simp only [Bool.and_eq_true] at this
  rw [hv, ← hpk]
  exact this.2

theorem jsStrictEq_eq {a b : JVal} (h : jsStrictEq a b = true) : a = b := by
  cases a <;> cases b <;> simp_all [jsStrictEq]

theorem setUnion_foldl_mem (l : List String) :
    ∀ acc x, (x ∈ l.foldl
        (fun acc k => if acc.contains k then acc else acc ++ [k]) acc ↔
      x ∈ acc ∨ x ∈ l) := by
  induction l with
  | nil => intro acc x; simp
  | cons k rest ih =>
    intro acc x
    simp only [List.foldl_cons]
    by_cases hc : acc.contains k = true
    · rw [if_pos hc, ih]
      have hkm : k ∈ acc := by simpa using hc
      constructor
      · rintro (h | h)
        · exact Or.inl h
        · exact Or.inr (List.mem_cons_of_mem _ h)
      · rintro (h | h)
        · exact Or.inl h
        · rcases List.mem_cons.mp h with h | h
          · exact Or.inl (h ▸ hkm)
          · exact Or.inr h
    · rw [if_neg hc, ih]
      simp only [List.mem_append, List.mem_singleton, List.mem_cons]
      tauto

theorem setUnion_foldl_nodup (l : List String) :
    ∀ acc : List String, acc.Nodup →
    (l.foldl (fun acc k => if acc.contains k then acc else acc ++ [k])
      acc).Nodup := by
  induction l with
  | nil => intro acc h; exact h
  | cons k rest ih =>
    intro acc h
    simp only [List.foldl_cons]
    by_cases hc : acc.contains k = true
    · rw [if_pos hc]; exact ih acc h
    · rw [if_neg hc]
      apply ih
      rw [List.nodup_append]
      refine ⟨h, List.nodup_singleton k, ?_⟩
      intro a ha hb
      simp only [List.mem_singleton] at hb
      subst hb
      have hnm : a ∉ acc := by simpa using hc
      exact hnm ha

theorem setUnion_mem (l1 l2 : List String) (x : String) :
    x ∈ setUnion l1 l2 ↔ x ∈ l1 ∨ x ∈ l2 := by
  rw [setUnion, setUnion_foldl_mem]
  simp

theorem setUnion_nodup (l1 l2 : List String) : (setUnion l1 l2).Nodup :=
  setUnion_foldl_nodup (l1 ++ l2) [] (List.nodup_nil)

theorem nodup_length_eq_of_mem_iff {l1 l2 : List String} (h1 : l1.Nodup)
    (h2 : l2.Nodup) (h : ∀ k, k ∈ l1 ↔ k ∈ l2) : l1.length = l2.length := by
  have hperm : l1.Perm l2 := by
    apply List.perm_of_nodup_nodup_toFinset_eq h1 h2
    apply Finset.ext
    intro a
    simp only [List.mem_toFinset]
    exact h a
  exact hperm.length_eq

theorem filter_partition_length {α : Type} (l : List α) (p : α → Bool) :
    (l.filter p).length + (l.filter (fun a => !(p a))).length = l.length := by
  induction l with
  | nil => rfl
  | cons a rest ih =>
    by_cases h : p a = true
    · simp only [List.filter_cons, h, if_true, ite_true, reduceIte,
        Bool.not_true, Bool.false_eq_true, if_false, ite_false, List.length_cons]
      omega
    · have h' : p a = false := by revert h; cases p a <;> simp
      simp only [List.filter_cons, h', Bool.false_eq_true, if_false, ite_false,
        Bool.not_false, if_true, ite_true, reduceIte, List.length_cons]
      omega

/-- The second merge loop keeps exactly the fields of `obj2` whose keys the
first object does not own, in order. -/
theorem mergeLoop2_filter (d f1 : List (String × JVal)) :
    mergeLoop2 d (.obj f1) =
      .ok (d.filter (fun p => !(objHasKey f1 p.1))) := by
  induction d with
  | nil => rw [mergeLoop2_nil_eq]; rfl
  | cons p rest ih =>
    obtain ⟨key, w⟩ := p
    rw [mergeLoop2_cons_eq]
    have hown : jsHasOwnProperty (.obj f1) key = .ok (objHasKey f1 key) := rfl
    rw [hown]
    simp only [bind, Except.bind, ih]
    cases hk : objHasKey f1 key <;>
      simp [List.filter_cons, hk]

theorem mergeTwoObjects_obj_build {f1 f2 L1 L2 : List (String × JVal)}
    (hl1 : mergeLoop1 f1 (.obj f2) = .ok L1)
    (hl2 : mergeLoop2 f2 (.obj f1) = .ok L2) :
    mergeTwoObjects (.obj f1) (.obj f2) = .ok (.obj (L1 ++ L2)) := by
  rw [mergeTwoObjects.eq_def]
  simp only [toFields, bind, Except.bind, hl1, hl2]

theorem mergeLoop1_exists {f1 : List (String × JVal)} {o2 : JVal}
    (hown : ∀ p ∈ f1, ∃ b, jsHasOwnProperty o2 p.1 = .ok b)
    (hmerge : ∀ p ∈ f1, jsHasOwnProperty o2 p.1 = .ok true →
      (isArrJ p.2 && isArrJ (jsGet o2 p.1)) = false →
      jsIsObject p.2 = true →
      ∃ r, mergeTwoObjects p.2 (jsGet o2 p.1) = .ok r) :
    ∃ L1, mergeLoop1 f1 o2 = .ok L1 := by
  induction f1 with
  | nil => exact ⟨[], mergeLoop1_nil_eq o2⟩
  | cons p rest ih =>
    obtain ⟨key, w⟩ := p
    obtain ⟨Lrest, hrest⟩ := ih
      (fun q hq => hown q (List.mem_cons_of_mem _ hq))
      (fun q hq => hmerge q (List.mem_cons_of_mem _ hq))
    obtain ⟨b, hb⟩ := hown (key, w) (List.mem_cons_self _ _)
    rw [mergeLoop1_cons_eq, hb]
    simp only [bind, Except.bind]
    cases b with
    | false =>
      simp only [Bool.false_eq_true, if_false, ite_false, reduceIte, hrest]
      exact ⟨_, rfl⟩
    | true =>
      simp only [if_true, ite_true, reduceIte]
      by_cases harr : (isArrJ w && isArrJ (jsGet o2 key)) = true
      · rw [if_pos harr]
        simp only [hrest]
        exact ⟨_, rfl⟩
      · rw [if_neg harr]
        by_cases hobj : jsIsObject w = true
        · rw [if_pos hobj]
          obtain ⟨r, hr⟩ := hmerge (key, w) (List.mem_cons_self _ _) hb
            (by revert harr; cases isArrJ w && isArrJ (jsGet o2 key) <;> simp)
            hobj
          simp only [hr, hrest]
          exact ⟨_, rfl⟩
        · rw [if_neg hobj]
          simp only [hrest]
          exact ⟨_, rfl⟩

theorem objHasKey_cons_self (key : String) (w : JVal)
    (l : List (String × JVal)) : objHasKey ((key, w) :: l) key = true := by
  simp [objHasKey]

theorem objHasKey_cons_of (key : String) (w : JVal)
    {l : List (String × JVal)} {k : String} (h : objHasKey l k = true) :
    objHasKey ((key, w) :: l) k = true := by
  simp [objHasKey, List.any_cons] at h ⊢
  exact Or.inr h

theorem wfTree_not_arr {v : JVal} (h : wfTree v = true) : isArrJ v = false := by
  cases v <;> simp_all [wfTree, isArrJ]

theorem wfTree_to_obj {v : JVal} (h : wfTree v = true)
    (ho : jsIsObject v = true) : ∃ g, v = .obj g ∧ wfFields g = true := by
  cases v <;> simp_all [wfTree, jsIsObject]

/-- The induction package for the diff-then-merge argument: the diff of two
plain objects succeeds, an empty diff certifies deep equality, and merging
the first object with the diff succeeds and is deep-equal to the second. -/
def DMPack (g1 g2 : List (String × JVal)) : Prop :=
  ∃ dg : List (String × JVal),
    getObjectDiffIterative (.obj g1) (.obj g2) = .ok (.obj dg) ∧
    (dg = [] → isObjectDeepEqual (.obj g1) (.obj g2) = true) ∧
    ∃ mg : JVal, mergeTwoObjects (.obj g1) (.obj dg) = .ok mg ∧
      isObjectDeepEqual mg (.obj g2) = true

/-- What the diff records for one entry: for a key owned by `before`, either
the before-value is not map-like and the diff stores the after-value, or it
is map-like and the diff stores its own (successful) recursive diff result;
for a key not owned by `before`, the diff stores the after-value. -/
def DiffEntryOk (f1 f2 : List (String × JVal)) (p : String × JVal) : Prop :=
  (p.1 ∈ f1.map Prod.fst →
    (jsIsObject (objLookup f1 p.1) = false ∧ p.2 = objLookup f2 p.1) ∨
    (jsIsObject (objLookup f1 p.1) = true ∧ ∃ dg : List (String × JVal),
      p.2 = .obj dg ∧
      getObjectDiffIterative (objLookup f1 p.1) (objLookup f2 p.1) =
        .ok (.obj dg))) ∧
  (p.1 ∉ f1.map Prod.fst → p.2 = objLookup f2 p.1)

/-- The facts collected about the list a run of `diffKeys` appends. -/
def DiffListOk (f1 f2 : List (String × JVal)) (keys : List String)
    (l : List (String × JVal)) : Prop :=
  (∀ p ∈ l, p.1 ∈ keys) ∧
  (l.map Prod.fst).Nodup ∧
  (∀ k ∈ keys, k ∈ f1.map Prod.fst → objHasKey l k = false →
    isObjectDeepEqual (objLookup f1 k) (objLookup f2 k) = true) ∧
  (∀ p ∈ l, DiffEntryOk f1 f2 p) ∧
  (∀ k ∈ keys, k ∉ f1.map Prod.fst → k ∈ f2.map Prod.fst →
    objHasKey l k = true)

theorem diff_spec_cons {f1 f2 : List (String × JVal)} {key : String}
    {x : JVal} {rest : List String} {l' : List (String × JVal)}
    (hkr : key ∉ rest) (hpack : DiffListOk f1 f2 rest l')
    (hx : DiffEntryOk f1 f2 (key, x)) :
    DiffListOk f1 f2 (key :: rest) ((key, x) :: l') := by
  obtain ⟨hsub, hnod, hF1, hF2, hF3⟩ := hpack
  refine ⟨?_, ?_, ?_, ?_, ?_⟩
  · intro p hp
    rcases List.mem_cons.mp hp with hp | hp
    · rw [hp]; exact List.mem_cons_self _ _
    · exact List.mem_cons_of_mem _ (hsub p hp)
  · simp only [List.map_cons, List.nodup_cons]
    refine ⟨?_, hnod⟩
    intro hc
    obtain ⟨q, hq, hqk⟩ := List.mem_map.mp hc
    exact hkr (hqk ▸ hsub q hq)
  · intro k hk hkf hnl
    rcases List.mem_cons.mp hk with hkk | hkk
    · subst hkk
      simp [objHasKey] at hnl
    · exact hF1 k hkk hkf (objHasKey_cons_false hnl).2
  · intro p hp
    rcases List.mem_cons.mp hp with hp | hp
    · rw [hp]; exact hx
    · exact hF2 p hp
  · intro k hk hnf1 hf2k
    rcases List.mem_cons.mp hk with hkk | hkk
    · subst hkk
      exact objHasKey_cons_self _ _ _
    · exact objHasKey_cons_of _ _ (hF3 k hkk hnf1 hf2k)

theorem diff_spec_skip {f1 f2 : List (String × JVal)} {key : String}
    {rest : List String} {l' : List (String × JVal)}
    (hpack : DiffListOk f1 f2 rest l') (hkf1 : key ∈ f1.map Prod.fst)
    (hde : isObjectDeepEqual (objLookup f1 key) (objLookup f2 key) = true) :
    DiffListOk f1 f2 (key :: rest) l' := by
  obtain ⟨hsub, hnod, hF1, hF2, hF3⟩ := hpack
  refine ⟨?_, hnod, ?_, hF2, ?_⟩
  · intro p hp
    exact List.mem_cons_of_mem _ (hsub p hp)
  · intro k hk hkf hnl
    rcases List.mem_cons.mp hk with hkk | hkk
    · subst hkk
      exact hde
    · exact hF1 k hkk hkf hnl
  · intro k hk hnf1 hf2k
    rcases List.mem_cons.mp hk with hkk | hkk
    · subst hkk
      exact absurd hkf1 hnf1
    · exact hF3 k hkk hnf1 hf2k

theorem mergeLoop1_lookup_notown {f1 : List (String × JVal)} {o2 : JVal}
    {L1 : List (String × JVal)} {k : String} {v1 : JVal}
    (h : mergeLoop1 f1 o2 = .ok L1)
    (hnodup : (f1.map Prod.fst).Nodup)
    (hmem : (k, v1) ∈ f1)
    (hown : jsHasOwnProperty o2 k = .ok false) :
    objLookup L1 k = v1 := by
  induction f1 generalizing L1 with
  | nil => cases hmem
  | cons p rest ih =>
    obtain ⟨key, w⟩ := p
    simp only [List.map_cons, List.nodup_cons] at hnodup
    rw [mergeLoop1_cons_eq] at h
    rcases List.mem_cons.mp hmem with hhead | htail
    · injection hhead with hk hw
      subst hk
      subst hw
      rw [hown] at h
      simp only [bind, Except.bind, Bool.false_eq_true, if_false, ite_false,
        reduceIte] at h
      cases hrest : mergeLoop1 rest o2 with
      | error e => rw [hrest] at h; simp at h
      | ok Lrest =>
        rw [hrest] at h
        simp only [Except.ok.injEq] at h
        subst h
        simp [objLookup]
    · have hkne : key ≠ k := by
        intro hcontra
        subst hcontra
        exact hnodup.1 (List.mem_map_of_mem Prod.fst htail)
      cases hhb : jsHasOwnProperty o2 key with
      | error e => rw [hhb] at h; simp [bind, Except.bind] at h
      | ok b =>
        rw [hhb] at h
        simp only [bind, Except.bind] at h
        have hstep : ∀ (x : JVal) (Lrest : List (String × JVal)),
            mergeLoop1 rest o2 = .ok Lrest → L1 = (key, x) :: Lrest →
            objLookup L1 k = v1 := by
          intro x Lrest hrest hL
          subst hL
          simp only [objLookup, if_neg hkne]
          exact ih hrest hnodup.2 htail
        cases b with
        | false =>
          simp only [Bool.false_eq_true, if_false, ite_false, reduceIte] at h
          cases hrest : mergeLoop1 rest o2 with
          | error e => rw [hrest] at h; simp at h
          | ok Lrest =>
            rw [hrest] at h
            simp only [Except.ok.injEq] at h
            exact hstep w Lrest hrest h.symm
        | true =>
          simp only [if_true, ite_true, reduceIte] at h
          by_cases harr : (isArrJ w && isArrJ (jsGet o2 key)) = true
          · rw [if_pos harr] at h
            cases hrest : mergeLoop1 rest o2 with
            | error e => rw [hrest] at h; simp at h
            | ok Lrest =>
              rw [hrest] at h
              simp only [Except.ok.injEq] at h
              exact hstep _ Lrest hrest h.symm
          · rw [if_neg harr] at h
            by_cases hobj : jsIsObject w = true
            · rw [if_pos hobj] at h
              cases hm : mergeTwoObjects w (jsGet o2 key) with
              | error e => rw [hm] at h; simp at h
              | ok mres =>
                rw [hm] at h
                simp only [] at h
                cases hrest : mergeLoop1 rest o2 with
                | error e => rw [hrest] at h; simp at h
                | ok Lrest =>
                  rw [hrest] at h
                  simp only [Except.ok.injEq] at h
                  exact hstep mres Lrest hrest h.symm
            · rw [if_neg hobj] at h
              cases hrest : mergeLoop1 rest o2 with
              | error e => rw [hrest] at h; simp at h
              | ok Lrest =>
                rw [hrest] at h
                simp only [Except.ok.injEq] at h
                exact hstep _ Lrest hrest h.symm

/-- Running `diffKeys` over distinct keys drawn from the two objects appends
a list satisfying `DiffListOk`, assuming the master induction hypothesis for
strictly lighter pairs. -/
theorem diffKeys_spec {f1 f2 : List (String × JVal)}
    (h1 : wfFields f1 = true) (h2 : wfFields f2 = true)
    (hadd : additiveVal (.obj f1) (.obj f2) = true)
    (IH : ∀ g1 g2 : List (String × JVal),
      jweightFields g1 + jweightFields g2 <
        jweightFields f1 + jweightFields f2 →
      wfFields g1 = true → wfFields g2 = true →
      additiveVal (.obj g1) (.obj g2) = true → DMPack g1 g2) :
    ∀ keys : List String, keys.Nodup →
    (∀ k ∈ keys, k ∈ f1.map Prod.fst ∨ k ∈ f2.map Prod.fst) →
    ∀ dacc : List (String × JVal), (∀ k ∈ keys, objHasKey dacc k = false) →
    ∃ l : List (String × JVal),
      diffKeys keys (.obj f1) (.obj f2) dacc = .ok (dacc ++ l) ∧
      DiffListOk f1 f2 keys l := by
  intro keys
  induction keys with
  | nil =>
    intro _ _ dacc _
    refine ⟨[], by rw [diffKeys_nil]; simp, ?_, ?_, ?_, ?_, ?_⟩
    · intro p hp; cases hp
    · simp
    · intro k hk; cases hk
    · intro p hp; cases hp
    · intro k hk; cases hk
  | cons key rest ih =>
    intro hnd hmem dacc hfr
    simp only [List.nodup_cons] at hnd
    have hkmem := hmem key (List.mem_cons_self _ _)
    have hfrk : objHasKey dacc key = false := hfr key (List.mem_cons_self _ _)
    have hndr := hnd.2
    have hmemr : ∀ k ∈ rest, k ∈ f1.map Prod.fst ∨ k ∈ f2.map Prod.fst :=
      fun k hk => hmem k (List.mem_cons_of_mem _ hk)
    have hfrr : ∀ k ∈ rest, objHasKey dacc k = false :=
      fun k hk => hfr k (List.mem_cons_of_mem _ hk)
    have hfr2 : ∀ x : JVal, ∀ k ∈ rest,
        objHasKey (dacc ++ [(key, x)]) k = false := by
      intro x k hk
      rw [objHasKey_append, hfrr k hk]
      have hne : ¬ (key = k) := fun hc => hnd.1 (hc ▸ hk)
      simp [objHasKey, hne]
    cases hk1 : objHasKey f1 key with
    | false =>
      have hnkf1 : key ∉ f1.map Prod.fst := by
        intro hc
        rw [← objHasKey_iff_mem] at hc
        rw [hc] at hk1
        cases hk1
      have hA : jsHasIn (.obj f1) key = .ok false := by
        show Except.ok (objHasKey f1 key) = .ok false
        rw [hk1]
      have hB : jsHasIn (.obj f2) key = .ok (objHasKey f2 key) := rfl
      rw [diffKeys_cons_added rest dacc hA hB]
      rw [objAssign_fresh _ hfrk]
      obtain ⟨l', heq, hpack⟩ :=
        ih hndr hmemr (dacc ++ [(key, jsGet (.obj f2) key)]) (hfr2 _)
      refine ⟨(key, jsGet (.obj f2) key) :: l', ?_, ?_⟩
      · rw [heq]; simp
      · refine diff_spec_cons hnd.1 hpack ⟨?_, ?_⟩
        · intro hc; exact absurd hc hnkf1
        · intro _; rfl
    | true =>
      have hkf1 : key ∈ f1.map Prod.fst := (objHasKey_iff_mem f1 key).mp hk1
      have hk2 : objHasKey f2 key = true := additive_keys hadd key hkf1
      have hA : jsHasIn (.obj f1) key = .ok true := by
        show Except.ok (objHasKey f1 key) = .ok true
        rw [hk1]
      have hB : jsHasIn (.obj f2) key = .ok true := by
        show Except.ok (objHasKey f2 key) = .ok true
        rw [hk2]
      cases hse : jsStrictEq (jsGet (.obj f1) key) (jsGet (.obj f2) key) with
      | true =>
        rw [diffKeys_cons_same rest dacc hA hB hse]
        obtain ⟨l', heq, hpack⟩ := ih hndr hmemr dacc hfrr
        refine ⟨l', heq, diff_spec_skip hpack hkf1 ?_⟩
        have he : objLookup f1 key = objLookup f2 key := jsStrictEq_eq hse
        rw [he]
        exact isObjectDeepEqual_refl _
      | false =>
        cases hobj : jsIsObject (objLookup f1 key) with
        | false =>
          have hff : (jsIsObject (jsGet (.obj f1) key) &&
              jsIsObject (jsGet (.obj f2) key)) = false := by
            show (jsIsObject (objLookup f1 key) &&
              jsIsObject (objLookup f2 key)) = false
            rw [hobj]
            rfl
          rw [diffKeys_cons_replaced rest dacc hA hB hse hff]
          rw [objAssign_fresh _ hfrk]
          obtain ⟨l', heq, hpack⟩ :=
            ih hndr hmemr (dacc ++ [(key, jsGet (.obj f2) key)]) (hfr2 _)
          refine ⟨(key, jsGet (.obj f2) key) :: l', ?_, ?_⟩
          · rw [heq]; simp
          · refine diff_spec_cons hnd.1 hpack ⟨?_, ?_⟩
            · intro _
              exact Or.inl ⟨hobj, rfl⟩
            · intro hc
              exact absurd hkf1 hc
        | true =>
          have hwfv : wfTree (objLookup f1 key) = true := wfFields_lookup h1 hk1
          obtain ⟨g1, hg1, hwf1⟩ := wfTree_to_obj hwfv hobj
          have haddv := additive_lookup (wfFields_nodup h1) hadd key hkf1
          obtain ⟨g2, hg2⟩ := additiveVal_obj_right (hg1 ▸ haddv)
          have hwf2 : wfFields g2 = true := by
            have := wfFields_lookup h2 hk2
            rw [hg2] at this
            simpa [wfTree] using this
          have haddg : additiveVal (.obj g1) (.obj g2) = true := by
            have := haddv
            rw [hg1, hg2] at this
            exact this
          have hw1 := objLookup_weight_lt_of_mem hkf1
          have hw2 := objLookup_weight_lt_of_mem
            ((objHasKey_iff_mem f2 key).mp hk2)
          rw [hg1] at hw1
          rw [hg2] at hw2
          simp only [jweight] at hw1 hw2
          obtain ⟨dg, hdg, hemp, -⟩ := IH g1 g2 (by omega) hwf1 hwf2 haddg
          have hoA : jsIsObject (jsGet (.obj f1) key) = true := hobj
          have hoB : jsIsObject (jsGet (.obj f2) key) = true := by
            show jsIsObject (objLookup f2 key) = true
            rw [hg2]
            rfl
          have hnested : getObjectDiffIterative (jsGet (.obj f1) key)
              (jsGet (.obj f2) key) = .ok (.obj dg) := by
            show getObjectDiffIterative (objLookup f1 key)
              (objLookup f2 key) = .ok (.obj dg)
            rw [hg1, hg2]
            exact hdg
          have hkk : jsObjectKeys (.obj dg) = .ok (dg.map Prod.fst) := rfl
          rw [diffKeys_cons_nested rest dacc hA hB hse hoA hoB hnested hkk]
          by_cases hdgnil : dg = []
          · subst hdgnil
            simp only [List.map_nil, List.length_nil, gt_iff_lt,
              Nat.lt_irrefl, if_false, ite_false, reduceIte]
            obtain ⟨l', heq, hpack⟩ := ih hndr hmemr dacc hfrr
            refine ⟨l', heq, diff_spec_skip hpack hkf1 ?_⟩
            have hde := hemp rfl
            rw [hg1, hg2]
            exact hde
          · rw [if_pos (by simp [List.length_pos, hdgnil])]
            rw [objAssign_fresh _ hfrk]
            obtain ⟨l', heq, hpack⟩ :=
              ih hndr hmemr (dacc ++ [(key, .obj dg)]) (hfr2 _)
            refine ⟨(key, .obj dg) :: l', ?_, ?_⟩
            · rw [heq]; simp
            · refine diff_spec_cons hnd.1 hpack ⟨?_, ?_⟩
              · intro _
                refine Or.inr ⟨hobj, dg, rfl, ?_⟩
                rw [hg1, hg2]
                exact hdg
              · intro hc
                exact absurd hkf1 hc

theorem objHasKey_eq_false_of_not_mem {fs : List (String × JVal)} {k : String}
    (h : k ∉ fs.map Prod.fst) : objHasKey fs k = false := by
  cases hc : objHasKey fs k
  · rfl
  · exact absurd ((objHasKey_iff_mem fs k).mp hc) h

/-- One step of the diff-then-merge argument: assuming the claim for all
strictly lighter pairs, the diff succeeds, an empty diff certifies deep
equality, and merging `before` with the diff is deep-equal to `after`. -/
theorem diff_merge_step (f1 f2 : List (String × JVal))
    (h1 : wfFields f1 = true) (h2 : wfFields f2 = true)
    (hadd : additiveVal (.obj f1) (.obj f2) = true)
    (IH : ∀ g1 g2 : List (String × JVal),
      jweightFields g1 + jweightFields g2 <
        jweightFields f1 + jweightFields f2 →
      wfFields g1 = true → wfFields g2 = true →
      additiveVal (.obj g1) (.obj g2) = true → DMPack g1 g2) :
    DMPack f1 f2 := by
  obtain ⟨d, heq, hsub, hnod, hF1, hF2, hF3⟩ :=
    diffKeys_spec h1 h2 hadd IH
      (setUnion (f1.map Prod.fst) (f2.map Prod.fst)) (setUnion_nodup _ _)
      (fun k hk => (setUnion_mem _ _ k).mp hk) [] (fun k _ => rfl)
  simp only [List.nil_append] at heq
  have hnd1 := wfFields_nodup h1
  have hnd2 := wfFields_nodup h2
  have hsub12 : ∀ k ∈ f1.map Prod.fst, k ∈ f2.map Prod.fst := by
    intro k hk
    exact (objHasKey_iff_mem f2 k).mp (additive_keys hadd k hk)
  have hdiff : getObjectDiffIterative (.obj f1) (.obj f2) = .ok (.obj d) := by
    rw [getObjectDiffIterative_obj_obj, heq]
    rfl
  have hnest : ∀ k ∈ f1.map Prod.fst, jsIsObject (objLookup f1 k) = true →
      ∃ g1 g2, objLookup f1 k = .obj g1 ∧ objLookup f2 k = .obj g2 ∧
        wfFields g1 = true ∧ wfFields g2 = true ∧
        additiveVal (.obj g1) (.obj g2) = true ∧
        jweightFields g1 + jweightFields g2 <
          jweightFields f1 + jweightFields f2 := by
    intro k hk hobj
    have hwfv : wfTree (objLookup f1 k) = true :=
      wfFields_lookup h1 ((objHasKey_iff_mem f1 k).mpr hk)
    obtain ⟨g1, hg1, hwf1⟩ := wfTree_to_obj hwfv hobj
    have haddv := additive_lookup hnd1 hadd k hk
    obtain ⟨g2, hg2⟩ := additiveVal_obj_right (hg1 ▸ haddv)
    have hwf2 : wfFields g2 = true := by
      have := wfFields_lookup h2 ((objHasKey_iff_mem f2 k).mpr (hsub12 k hk))
      rw [hg2] at this
      simpa [wfTree] using this
    have haddg : additiveVal (.obj g1) (.obj g2) = true := by
      have := haddv
      rw [hg1, hg2] at this
      exact this
    have hw1 := objLookup_weight_lt_of_mem hk
    have hw2 := objLookup_weight_lt_of_mem (hsub12 k hk)
    rw [hg1] at hw1
    rw [hg2] at hw2
    simp only [jweight] at hw1 hw2
    exact ⟨g1, g2, hg1, hg2, hwf1, hwf2, haddg, by omega⟩
  have hdval : ∀ k ∈ f1.map Prod.fst, objHasKey d k = true →
      jsIsObject (objLookup f1 k) = true →
      ∃ dg, objLookup d k = .obj dg ∧
        getObjectDiffIterative (objLookup f1 k) (objLookup f2 k) =
          .ok (.obj dg) := by
    intro k hk hdk hobj
    have hmemd := mem_of_objHasKey hdk
    have hent := hF2 (k, objLookup d k) hmemd
    rcases hent.1 hk with ⟨hno, -⟩ | ⟨-, dg, hdg1, hdg2⟩
    · rw [hobj] at hno
      cases hno
    · exact ⟨dg, hdg1, hdg2⟩
  have hmergeok : ∀ p ∈ f1, jsHasOwnProperty (.obj d) p.1 = .ok true →
      (isArrJ p.2 && isArrJ (jsGet (.obj d) p.1)) = false →
      jsIsObject p.2 = true →
      ∃ r, mergeTwoObjects p.2 (jsGet (.obj d) p.1) = .ok r := by
    intro p hp hown _ hobj
    have hkmem : p.1 ∈ f1.map Prod.fst := List.mem_map_of_mem Prod.fst hp
    have hlk : objLookup f1 p.1 = p.2 :=
      objLookup_eq_of_mem hnd1 (by simpa using hp)
    have hdk : objHasKey d p.1 = true := by
      have hok : (Except.ok (objHasKey d p.1) : Except Unit Bool) =
        .ok true := hown
      simpa using hok
    have hobj' : jsIsObject (objLookup f1 p.1) = true := by
      rw [hlk]; exact hobj
    obtain ⟨dg, hdg1, hdg2⟩ := hdval p.1 hkmem hdk hobj'
    obtain ⟨g1, g2, hg1, hg2, hwf1, hwf2, haddg, hwlt⟩ := hnest p.1 hkmem hobj'
    obtain ⟨dg', hdg', hemp', mg, hmg, hde⟩ := IH g1 g2 hwlt hwf1 hwf2 haddg
    rw [hg1, hg2] at hdg2
    rw [hdg2] at hdg'
    simp only [Except.ok.injEq, JVal.obj.injEq] at hdg'
    subst hdg'
    refine ⟨mg, ?_⟩
    show mergeTwoObjects p.2 (objLookup d p.1) = .ok mg
    rw [← hlk, hg1, hdg1]
    exact hmg
  have hownall : ∀ p ∈ f1, ∃ b, jsHasOwnProperty (JVal.obj d) p.1 = .ok b :=
    fun p _ => ⟨objHasKey d p.1, rfl⟩
  obtain ⟨L1, hL1⟩ := mergeLoop1_exists hownall hmergeok
  have hL1keys := mergeLoop1_keys hL1
  have hL2 := mergeLoop2_filter d f1
  have hL2nodup :
      ((d.filter (fun p => !(objHasKey f1 p.1))).map Prod.fst).Nodup := by
    apply List.Nodup.sublist ((List.filter_sublist d).map Prod.fst)
    exact hnod
  refine ⟨d, hdiff, ?_,
    .obj (L1 ++ d.filter (fun p => !(objHasKey f1 p.1))),
    mergeTwoObjects_obj_build hL1 hL2, ?_⟩
  · intro hdnil
    subst hdnil
    have hsub21 : ∀ k ∈ f2.map Prod.fst, k ∈ f1.map Prod.fst := by
      intro k hk
      by_contra hnk
      have := hF3 k ((setUnion_mem _ _ k).mpr (Or.inr hk)) hnk hk
      simp [objHasKey] at this
    rw [isObjectDeepEqual_obj_obj]
    have hlen : (f1.map Prod.fst).length = (f2.map Prod.fst).length :=
      nodup_length_eq_of_mem_iff hnd1 hnd2 (fun k => ⟨hsub12 k, hsub21 k⟩)
    rw [if_neg (fun hc => hc hlen)]
    rw [List.all_eq_true]
    intro k hk
    exact hF1 k ((setUnion_mem _ _ k).mpr (Or.inl hk)) hk rfl
  · have hL2mem : ∀ k,
        k ∈ (d.filter (fun p => !(objHasKey f1 p.1))).map Prod.fst ↔
        (k ∈ f2.map Prod.fst ∧ k ∉ f1.map Prod.fst) := by
      intro k
      constructor
      · intro hk
        obtain ⟨p, hp, hpk⟩ := List.mem_map.mp hk
        rw [List.mem_filter] at hp
        obtain ⟨hpd, hpf⟩ := hp
        have hkn1 : k ∉ f1.map Prod.fst := by
          intro hc
          rw [← hpk, ← objHasKey_iff_mem] at hc
          rw [hc] at hpf
          simp at hpf
        refine ⟨?_, hkn1⟩
        have hK := hsub p hpd
        rw [hpk] at hK
        rcases (setUnion_mem _ _ k).mp hK with h | h
        · exact absurd h hkn1
        · exact h
      · rintro ⟨hk2, hk1⟩
        have hdk : objHasKey d k = true :=
          hF3 k ((setUnion_mem _ _ k).mpr (Or.inr hk2)) hk1 hk2
        apply List.mem_map.mpr
        refine ⟨(k, objLookup d k), ?_, rfl⟩
        rw [List.mem_filter]
        refine ⟨mem_of_objHasKey hdk, ?_⟩
        simp [objHasKey_eq_false_of_not_mem hk1]
    have hlenL2 : ((d.filter (fun p => !(objHasKey f1 p.1))).map Prod.fst).length =
        ((f2.map Prod.fst).filter (fun k => !(objHasKey f1 k))).length := by
      apply nodup_length_eq_of_mem_iff hL2nodup (hnd2.filter _)
      intro k
      rw [hL2mem k, List.mem_filter]
      constructor
      · rintro ⟨hk2, hk1⟩
        exact ⟨hk2, by simp [objHasKey_eq_false_of_not_mem hk1]⟩
      · rintro ⟨hk2, hkb⟩
        refine ⟨hk2, ?_⟩
        intro hc
        rw [← objHasKey_iff_mem] at hc
        rw [hc] at hkb
        simp at hkb
    have hlenf1 : (f1.map Prod.fst).length =
        ((f2.map Prod.fst).filter (fun k => objHasKey f1 k)).length := by
      apply nodup_length_eq_of_mem_iff hnd1 (hnd2.filter _)
      intro k
      rw [List.mem_filter]
      constructor
      · intro hk
        exact ⟨hsub12 k hk, (objHasKey_iff_mem f1 k).mpr hk⟩
      · rintro ⟨-, hk⟩
        exact (objHasKey_iff_mem f1 k).mp hk
    rw [isObjectDeepEqual_obj_obj]
    have hlen : ((L1 ++ d.filter (fun p => !(objHasKey f1 p.1))).map
        Prod.fst).length = (f2.map Prod.fst).length := by
      rw [List.map_append, List.length_append, hL1keys, hlenf1, hlenL2]
      exact filter_partition_length (f2.map Prod.fst)
        (fun k => objHasKey f1 k)
    rw [if_neg (fun hc => hc hlen)]
    rw [List.all_eq_true]
    intro k hk
    rw [List.map_append, List.mem_append] at hk
    show isObjectDeepEqual
      (objLookup (L1 ++ d.filter (fun p => !(objHasKey f1 p.1))) k)
      (objLookup f2 k) = true
    rcases hk with hk | hk
    · rw [hL1keys] at hk
      have hkL1 : objHasKey L1 k = true := by
        rw [objHasKey_iff_mem, hL1keys]
        exact hk
      rw [objLookup_append_left hkL1]
      have hlkmem : (k, objLookup f1 k) ∈ f1 :=
        mem_of_objHasKey ((objHasKey_iff_mem f1 k).mpr hk)
      cases hdk : objHasKey d k with
      | false =>
        have hown : jsHasOwnProperty (.obj d) k = .ok false := by
          show Except.ok (objHasKey d k) = .ok false
          rw [hdk]
        rw [mergeLoop1_lookup_notown hL1 hnd1 hlkmem hown]
        exact hF1 k ((setUnion_mem _ _ k).mpr (Or.inl hk)) hk hdk
      | true =>
        have hown : jsHasOwnProperty (.obj d) k = .ok true := by
          show Except.ok (objHasKey d k) = .ok true
          rw [hdk]
        have hml := mergeLoop1_lookup hL1 hnd1 hlkmem hown
        have harr : isArrJ (objLookup f1 k) = false :=
          wfTree_not_arr (wfFields_lookup h1 ((objHasKey_iff_mem f1 k).mpr hk))
        rw [if_neg (by simp [harr])] at hml
        cases hobj : jsIsObject (objLookup f1 k) with
        | true =>
          rw [if_pos hobj] at hml
          obtain ⟨dg, hdg1, hdg2⟩ := hdval k hk hdk hobj
          obtain ⟨g1, g2, hg1, hg2, hwf1, hwf2, haddg, hwlt⟩ :=
            hnest k hk hobj
          obtain ⟨dg', hdg', hemp', mg, hmg, hde⟩ :=
            IH g1 g2 hwlt hwf1 hwf2 haddg
          rw [hg1, hg2] at hdg2
          rw [hdg2] at hdg'
          simp only [Except.ok.injEq, JVal.obj.injEq] at hdg'
          subst hdg'
          have hjs : jsGet (.obj d) k = .obj dg := hdg1
          rw [hg1, hjs] at hml
          rw [hml] at hmg
          simp only [Except.ok.injEq] at hmg
          rw [hmg, hg2]
          exact hde
        | false =>
          rw [if_neg (by simp [hobj])] at hml
          have hmemd := mem_of_objHasKey hdk
          have hent := hF2 (k, objLookup d k) hmemd
          rcases hent.1 hk with ⟨-, hveq⟩ | ⟨hio, -⟩
          · rw [hml]
            have hjs : jsGet (.obj d) k = objLookup f2 k := hveq
            rw [hjs]
            exact isObjectDeepEqual_refl _
          · rw [hobj] at hio
            cases hio
    · obtain ⟨p, hp, hpk⟩ := List.mem_map.mp hk
      obtain ⟨k0, v⟩ := p
      simp only at hpk
      subst hpk
      rw [List.mem_filter] at hp
      obtain ⟨hpd, hpf⟩ := hp
      have hkn1 : k0 ∉ f1.map Prod.fst := by
        intro hc
        rw [← objHasKey_iff_mem] at hc
        rw [hc] at hpf
        simp at hpf
      have hkL1 : objHasKey L1 k0 = false := by
        apply objHasKey_eq_false_of_not_mem
        rw [hL1keys]
        exact hkn1
      rw [objLookup_append_fresh _ hkL1]
      have hlk2 : objLookup (d.filter (fun p => !(objHasKey f1 p.1))) k0 = v :=
        objLookup_eq_of_mem hL2nodup (by rw [List.mem_filter]; exact ⟨hpd, hpf⟩)
      rw [hlk2]
      have hveq : v = objLookup f2 k0 := (hF2 (k0, v) hpd).2 hkn1
      rw [hveq]
      exact isObjectDeepEqual_refl _

theorem diff_merge_aux :
    ∀ n : Nat, ∀ f1 f2 : List (String × JVal),
    jweightFields f1 + jweightFields f2 ≤ n →
    wfFields f1 = true → wfFields f2 = true →
    additiveVal (.obj f1) (.obj f2) = true → DMPack f1 f2 := by
  intro n
  induction n with
  | zero =>
    intro f1 f2 hle h1 h2 hadd
    exact diff_merge_step f1 f2 h1 h2 hadd
      (fun g1 g2 hlt _ _ _ => absurd hlt (by omega))
  | succ n ih =>
    intro f1 f2 hle h1 h2 hadd
    exact diff_merge_step f1 f2 h1 h2 hadd
      (fun g1 g2 hlt hg1 hg2 hga => ih g1 g2 (by omega) hg1 hg2 hga)

/-- C8: for map-only before/after trees (`wfFields`: no list-like values,
pairwise distinct keys) where `after` is `before` plus only new or changed
keys with no removals at any level (`additiveVal`), the diff succeeds, the
merge of `before` with the diff succeeds, and the result is deep-equal to
`after`. -/
theorem C8_theorem (f1 f2 : List (String × JVal))
    (h1 : wfFields f1 = true) (h2 : wfFields f2 = true)
    (hadd : additiveVal (.obj f1) (.obj f2) = true) :
    ∃ d m : JVal, getObjectDiffIterative (.obj f1) (.obj f2) = .ok d ∧
      mergeTwoObjects (.obj f1) d = .ok m ∧
      isObjectDeepEqual m (.obj f2) = true := by
  obtain ⟨d, hdiff, -, m, hmerge, hde⟩ :=
    diff_merge_aux (jweightFields f1 + jweightFields f2) f1 f2 le_rfl
      h1 h2 hadd
  exact ⟨.obj d, m, hdiff, hmerge, hde⟩

theorem C8_witness :
    wfFields [("a", .num 1), ("b", .obj [("c", .num 2)])] = true ∧
    wfFields [("a", .num 5), ("b", .obj [("c", .num 2), ("d", .num 7)]),
      ("e", .num 9)] = true ∧
    additiveVal (.obj [("a", .num 1), ("b", .obj [("c", .num 2)])])
      (.obj [("a", .num 5), ("b", .obj [("c", .num 2), ("d", .num 7)]),
        ("e", .num 9)]) = true ∧
    (∃ d m : JVal,
      getObjectDiffIterative
        (.obj [("a", .num 1), ("b", .obj [("c", .num 2)])])
        (.obj [("a", .num 5), ("b", .obj [("c", .num 2), ("d", .num 7)]),
          ("e", .num 9)]) = .ok d ∧
      mergeTwoObjects (.obj [("a", .num 1), ("b", .obj [("c", .num 2)])])
        d = .ok m ∧
      isObjectDeepEqual m
        (.obj [("a", .num 5), ("b", .obj [("c", .num 2), ("d", .num 7)]),
          ("e", .num 9)]) = true) := by
  have hwf1 : wfFields [("a", .num 1), ("b", .obj [("c", .num 2)])] = true := by
    decide
  have hwf2 : wfFields [("a", .num 5), ("b", .obj [("c", .num 2),
      ("d", .num 7)]), ("e", .num 9)] = true := by
    decide
  have hadd : additiveVal (.obj [("a", .num 1), ("b", .obj [("c", .num 2)])])
      (.obj [("a", .num 5), ("b", .obj [("c", .num 2), ("d", .num 7)]),
        ("e", .num 9)]) = true := by
    simp [additiveVal_obj_obj, additiveVal_not_obj, jsIsObject, objHasKey,
      objLookup]
  exact ⟨hwf1, hwf2, hadd, C8_theorem _ _ hwf1 hwf2 hadd⟩

theorem C7_witness :
    goodFields [("a", .obj [("b", .num 1), ("c", .obj [("d", .str "x")])]),
      ("e", .bool true)] = true ∧
    isObjectDeepEqual
      (transformToUnflattenObject (transformToFlattenObject
        (.obj [("a", .obj [("b", .num 1), ("c", .obj [("d", .str "x")])]),
          ("e", .bool true)])))
      (.obj [("a", .obj [("b", .num 1), ("c", .obj [("d", .str "x")])]),
        ("e", .bool true)]) = true :=
  ⟨by decide, C7_amended _ (by decide)⟩

end ObjectManager
